import Mathlib

/-!
Verification of the Task-manager repository's core computations.

Modelling conventions, shared by every definition below:

* A JavaScript `Date` at local midnight is modelled by its day number
  `z : ℤ` (days since 1970-01-01).  The application's holiday table is a
  Singapore calendar; Singapore has no daylight-saving time, so adding one
  calendar day (`setDate(getDate()+1)`) is exactly `z + 1`, and the model
  places the local timezone at UTC so that `toISOString` used by
  `isHoliday` names the same civil date as the local accessors
  (`getFullYear`, `getDate`, `getMonth`).
* `getDay()` is `(z + 4) % 7` (1970-01-01 was a Thursday, `getDay() = 4`).
* The civil (year, month, day) view of a day number, and the JS
  `new Date(year, month, day)` constructor with its month/day overflow
  rolling, are modelled by `civilFromDays` / `daysFromCivil` below; these
  implement the proleptic Gregorian calendar, which is exactly the JS
  `Date` arithmetic at UTC.
* JS strings are Lean `String`s; `toLowerCase` is ASCII lowering (all
  strings compared by the code are ASCII).
-/

/-- Gregorian leap-year predicate (the rule implemented by JS `Date`). -/
def isLeap (y : ℤ) : Bool :=
  (y % 4 == 0 && y % 100 != 0) || y % 400 == 0

def daysInYear (y : ℤ) : ℤ := if isLeap y then 366 else 365

/-- Day number of 1-January of year `y` (days since 1970-01-01). -/
def yearStart (y : ℤ) : ℤ :=
  365 * y + (y - 1) / 4 - (y - 1) / 100 + (y - 1) / 400 - 719527

/-- Days before month `m` inside year `y` (`m = 1` is January).  Values
`m ≥ 13` give the full year so that month iteration can use it. -/
def monthStart (y m : ℤ) : ℤ :=
  if m ≤ 1 then 0
  else if m = 2 then 31
  else if m = 3 then 59 + (if isLeap y then 1 else 0)
  else if m = 4 then 90 + (if isLeap y then 1 else 0)
  else if m = 5 then 120 + (if isLeap y then 1 else 0)
  else if m = 6 then 151 + (if isLeap y then 1 else 0)
  else if m = 7 then 181 + (if isLeap y then 1 else 0)
  else if m = 8 then 212 + (if isLeap y then 1 else 0)
  else if m = 9 then 243 + (if isLeap y then 1 else 0)
  else if m = 10 then 273 + (if isLeap y then 1 else 0)
  else if m = 11 then 304 + (if isLeap y then 1 else 0)
  else if m = 12 then 334 + (if isLeap y then 1 else 0)
  else 365 + (if isLeap y then 1 else 0)

def monthLen (y m : ℤ) : ℤ :=
  if m = 2 then (if isLeap y then 29 else 28)
  else if m = 4 ∨ m = 6 ∨ m = 9 ∨ m = 11 then 30 else 31

/-- Day number of the civil date `(y, m, d)`; linear in `d`, so out-of-range
day (and, after normalisation, month) values roll over exactly as in the
JS `Date` constructor. -/
def daysFromCivil (y m d : ℤ) : ℤ := yearStart y + monthStart y m + d - 1

/-- Walk year by year inside a 400-year era. -/
def yearWalk : ℕ → ℤ → ℤ → ℤ × ℤ
  | 0, y, rem => (y, rem)
  | f + 1, y, rem =>
      if rem < daysInYear y then (y, rem) else yearWalk f (y + 1) (rem - daysInYear y)

/-- Walk month by month inside a year. -/
def monthWalk : ℕ → ℤ → ℤ → ℤ → ℤ × ℤ
  | 0, _, m, rem => (m, rem)
  | f + 1, y, m, rem =>
      if rem < monthLen y m then (m, rem) else monthWalk f y (m + 1) (rem - monthLen y m)

/-- Civil (year, month, day) of a day number (the JS accessors
`getFullYear()`, `getMonth()+1`, `getDate()`). -/
def civilFromDays (z : ℤ) : ℤ × ℤ × ℤ :=
  let q := (z + 719528) / 146097
  let yr := yearWalk 399 (400 * q) (z + 719528 - 146097 * q)
  let mr := monthWalk 11 yr.1 1 yr.2
  (yr.1, mr.1, mr.2 + 1)

theorem yearStart_succ (y : ℤ) : yearStart (y + 1) = yearStart y + daysInYear y := by
  simp only [yearStart, daysInYear, isLeap, Bool.or_eq_true, Bool.and_eq_true, beq_iff_eq,
    bne_iff_ne, ne_eq, decide_eq_true_eq]
  split_ifs with h
  · omega
  · omega

theorem yearStart_era (q : ℤ) : yearStart (400 * q) = 146097 * q - 719528 := by
  simp only [yearStart]
  omega

theorem monthStart_one (y : ℤ) : monthStart y 1 = 0 := by
  simp [monthStart]

theorem monthStart_succ (y m : ℤ) (h1 : 1 ≤ m) (h2 : m ≤ 12) :
    monthStart y (m + 1) = monthStart y m + monthLen y m := by
  rcases Bool.eq_false_or_eq_true (isLeap y) with h | h <;>
    interval_cases m <;> simp [monthStart, monthLen, h]

theorem monthStart_13 (y : ℤ) : monthStart y 13 = daysInYear y := by
  rcases Bool.eq_false_or_eq_true (isLeap y) with h | h <;>
    simp [monthStart, daysInYear, h]

theorem monthLen_bounds (y m : ℤ) : 28 ≤ monthLen y m ∧ monthLen y m ≤ 31 := by
  simp only [monthLen]
  split_ifs <;> omega

theorem yearWalk_spec :
    ∀ (f : ℕ) (y rem : ℤ), 0 ≤ rem → rem < yearStart (y + f + 1) - yearStart y →
      yearStart (yearWalk f y rem).1 + (yearWalk f y rem).2 = yearStart y + rem ∧
      0 ≤ (yearWalk f y rem).2 ∧ (yearWalk f y rem).2 < daysInYear (yearWalk f y rem).1 := by
  intro f
  induction f with
  | zero =>
      intro y rem h0 h1
      have harg : y + ((0 : ℕ) : ℤ) + 1 = y + 1 := by push_cast; ring
      rw [harg] at h1
      have hs := yearStart_succ y
      simp only [yearWalk]
      exact ⟨by ring, h0, by omega⟩
  | succ f ih =>
      intro y rem h0 h1
      have harg : y + (((f : ℕ) + 1 : ℕ) : ℤ) + 1 = y + 1 + ((f : ℕ) : ℤ) + 1 := by
        push_cast; ring
      rw [harg] at h1
      have hs := yearStart_succ y
      simp only [yearWalk]
      split_ifs with h
      · exact ⟨by ring, h0, h⟩
      · have hrec := ih (y + 1) (rem - daysInYear y) (by omega) (by omega)
        exact ⟨by omega, hrec.2.1, hrec.2.2⟩

theorem monthWalk_spec :
    ∀ (f : ℕ) (y m rem : ℤ), 1 ≤ m → m + f ≤ 12 → 0 ≤ rem →
      rem < monthStart y (m + f + 1) - monthStart y m →
      monthStart y (monthWalk f y m rem).1 + (monthWalk f y m rem).2
          = monthStart y m + rem ∧
      0 ≤ (monthWalk f y m rem).2 ∧
      (monthWalk f y m rem).2 < monthLen y (monthWalk f y m rem).1 ∧
      1 ≤ (monthWalk f y m rem).1 ∧ (monthWalk f y m rem).1 ≤ 12 := by
  intro f
  induction f with
  | zero =>
      intro y m rem hm1 hm2 h0 h1
      have harg : m + ((0 : ℕ) : ℤ) + 1 = m + 1 := by push_cast; ring
      rw [harg] at h1
      have hs := monthStart_succ y m hm1 (by push_cast at hm2; omega)
      simp only [monthWalk]
      exact ⟨by ring, h0, by omega, hm1, by push_cast at hm2; omega⟩
  | succ f ih =>
      intro y m rem hm1 hm2 h0 h1
      have hm2' : m + ((f : ℕ) : ℤ) + 1 ≤ 12 := by push_cast at hm2; omega
      have harg : m + (((f : ℕ) + 1 : ℕ) : ℤ) + 1 = m + 1 + ((f : ℕ) : ℤ) + 1 := by
        push_cast; ring
      rw [harg] at h1
      have hs := monthStart_succ y m hm1 (by omega)
      simp only [monthWalk]
      split_ifs with h
      · exact ⟨by ring, h0, h, hm1, by omega⟩
      · have hrec := ih y (m + 1) (rem - monthLen y m) (by omega) (by omega)
          (by omega) (by omega)
        exact ⟨by omega, hrec.2.1, hrec.2.2.1, by omega, hrec.2.2.2.2⟩

/-- The fundamental calendar fact: converting a day number to a civil date
and back is the identity, and the produced month/day are in range. -/
theorem civilFromDays_spec (z : ℤ) :
    daysFromCivil (civilFromDays z).1 (civilFromDays z).2.1 (civilFromDays z).2.2 = z ∧
    1 ≤ (civilFromDays z).2.1 ∧ (civilFromDays z).2.1 ≤ 12 ∧
    1 ≤ (civilFromDays z).2.2 ∧ (civilFromDays z).2.2 ≤ 31 := by
  have hq : 0 ≤ z + 719528 - 146097 * ((z + 719528) / 146097) ∧
      z + 719528 - 146097 * ((z + 719528) / 146097) < 146097 := by omega
  have hera := yearStart_era ((z + 719528) / 146097)
  have hera1 := yearStart_era ((z + 719528) / 146097 + 1)
  have hyw := yearWalk_spec 399 (400 * ((z + 719528) / 146097))
    (z + 719528 - 146097 * ((z + 719528) / 146097)) hq.1
    (by
      have harg : 400 * ((z + 719528) / 146097) + ((399 : ℕ) : ℤ) + 1
          = 400 * ((z + 719528) / 146097 + 1) := by push_cast; ring
      rw [harg, hera1, hera]
      omega)
  set yw := yearWalk 399 (400 * ((z + 719528) / 146097))
    (z + 719528 - 146097 * ((z + 719528) / 146097)) with hyw_def
  have h13 := monthStart_13 yw.1
  have hmw := monthWalk_spec 11 yw.1 1 yw.2 (by omega) (by norm_num) hyw.2.1
    (by
      have harg : (1 : ℤ) + ((11 : ℕ) : ℤ) + 1 = 13 := by norm_num
      rw [harg, monthStart_one, h13]
      omega)
  set mw := monthWalk 11 yw.1 1 yw.2 with hmw_def
  have hml := monthLen_bounds yw.1 mw.1
  have hcd : civilFromDays z = (yw.1, mw.1, mw.2 + 1) := by
    simp only [civilFromDays, hyw_def, hmw_def]
  rw [hcd]
  simp only [daysFromCivil]
  rw [monthStart_one] at hmw
  refine ⟨?_, hmw.2.2.2.1, hmw.2.2.2.2, by omega, by omega⟩
  omega

set_option maxRecDepth 10000 in
example : civilFromDays 0 = (1970, 1, 1) := by decide

set_option maxRecDepth 10000 in
example : civilFromDays 20454 = (2026, 1, 1) := by decide

example : daysFromCivil 2026 12 25 = 20812 := by decide

/-! ## The date utility (src/utils/dateUtils.js) -/

/-- `ALL_HOLIDAYS` keyed by year: the Singapore public holidays of 2026 as
(month, day) pairs, the empty list for every other year.  A `YYYY-MM-DD`
string of the source's table is represented by its (year, (month, day))
numerals, string equality being equality of these numerals. -/
def holidayTable (y : ℤ) : List (ℤ × ℤ) :=
  if y = 2026 then
    [(1, 1), (1, 29), (1, 30), (4, 18), (5, 1), (5, 26),
     (8, 9), (8, 31), (10, 24), (12, 25)]
  else []

/-- `isHoliday(date)`: look up the date's ISO `YYYY-MM-DD` string in the
holiday table of its year. -/
def isHoliday (z : ℤ) : Bool :=
  decide (((civilFromDays z).2.1, (civilFromDays z).2.2) ∈ holidayTable (civilFromDays z).1)

/-- `isWorkingDay(date)`: Monday–Friday (`getDay() ∈ [1,5]`) and not a
holiday. -/
def isWorkingDay (z : ℤ) : Bool :=
  (decide (1 ≤ (z + 4) % 7) && decide ((z + 4) % 7 ≤ 5)) && !isHoliday z

/-- The day numbers of the ten 2026 holidays. -/
def holidayDays : List ℤ :=
  [20454, 20482, 20483, 20561, 20574, 20599, 20674, 20696, 20750, 20812]

set_option maxRecDepth 10000 in
theorem holidayDays_sound : ∀ d ∈ holidayDays, isHoliday d = true := by decide

theorem isHoliday_iff (z : ℤ) : isHoliday z = true ↔ z ∈ holidayDays := by
  constructor
  · intro h
    have hspec := civilFromDays_spec z
    have h' : ((civilFromDays z).2.1, (civilFromDays z).2.2)
        ∈ holidayTable (civilFromDays z).1 := by simpa [isHoliday] using h
    by_cases hy : (civilFromDays z).1 = 2026
    · have hz : z = daysFromCivil 2026 (civilFromDays z).2.1 (civilFromDays z).2.2 := by
        rw [← hy]; exact hspec.1.symm
      simp only [holidayTable, hy, if_true, List.mem_cons, Prod.mk.injEq,
        List.not_mem_nil, or_false] at h'
      rcases h' with ⟨h1, h2⟩ | ⟨h1, h2⟩ | ⟨h1, h2⟩ | ⟨h1, h2⟩ | ⟨h1, h2⟩ | ⟨h1, h2⟩ |
        ⟨h1, h2⟩ | ⟨h1, h2⟩ | ⟨h1, h2⟩ | ⟨h1, h2⟩ <;>
        rw [h1, h2] at hz <;> rw [hz] <;> decide
    · simp [holidayTable, hy] at h'
  · intro h
    exact holidayDays_sound z h

theorem holiday_range (z : ℤ) (h : isHoliday z = true) : 20454 ≤ z ∧ z ≤ 20812 := by
  have := (isHoliday_iff z).1 h
  simp only [holidayDays, List.mem_cons, List.not_mem_nil, or_false] at this
  rcases this with h | h | h | h | h | h | h | h | h | h <;> omega

theorem holidays_not_three_close :
    ∀ x ∈ holidayDays, ∀ y ∈ holidayDays, ∀ w ∈ holidayDays,
      x < y → y < w → ¬ (w ≤ x + 6) := by decide

/-- If three weekday offsets inside a 7-day window exist, one of them is a
working day: at most two of the ten holidays lie within 6 days of each
other. -/
theorem pick_working (d k1 k2 k3 : ℤ)
    (hk1 : 1 ≤ k1) (h12 : k1 < k2) (h23 : k2 < k3) (hk3 : k3 ≤ 7)
    (w1 : 1 ≤ (d + k1 + 4) % 7 ∧ (d + k1 + 4) % 7 ≤ 5)
    (w2 : 1 ≤ (d + k2 + 4) % 7 ∧ (d + k2 + 4) % 7 ≤ 5)
    (w3 : 1 ≤ (d + k3 + 4) % 7 ∧ (d + k3 + 4) % 7 ≤ 5) :
    ∃ k, 1 ≤ k ∧ k ≤ 7 ∧ isWorkingDay (d + k) = true := by
  by_cases h1 : isHoliday (d + k1)
  · by_cases h2 : isHoliday (d + k2)
    · by_cases h3 : isHoliday (d + k3)
      · exfalso
        have m1 := (isHoliday_iff (d + k1)).1 h1
        have m2 := (isHoliday_iff (d + k2)).1 h2
        have m3 := (isHoliday_iff (d + k3)).1 h3
        exact holidays_not_three_close (d + k1) m1 (d + k2) m2 (d + k3) m3
          (by omega) (by omega) (by omega)
      · refine ⟨k3, by omega, by omega, ?_⟩
        simp only [isWorkingDay, Bool.and_eq_true, decide_eq_true_eq, Bool.not_eq_true']
        exact ⟨⟨w3.1, w3.2⟩, by simpa using h3⟩
    · refine ⟨k2, by omega, by omega, ?_⟩
      simp only [isWorkingDay, Bool.and_eq_true, decide_eq_true_eq, Bool.not_eq_true']
      exact ⟨⟨w2.1, w2.2⟩, by simpa using h2⟩
  · refine ⟨k1, by omega, by omega, ?_⟩
    simp only [isWorkingDay, Bool.and_eq_true, decide_eq_true_eq, Bool.not_eq_true']
    exact ⟨⟨w1.1, w1.2⟩, by simpa using h1⟩

/-- Every 7-day window `(d, d+7]` contains a working day. -/
theorem exists_working_in_week (d : ℤ) :
    ∃ k, 1 ≤ k ∧ k ≤ 7 ∧ isWorkingDay (d + k) = true := by
  have hr : (d + 4) % 7 = 0 ∨ (d + 4) % 7 = 1 ∨ (d + 4) % 7 = 2 ∨ (d + 4) % 7 = 3 ∨
      (d + 4) % 7 = 4 ∨ (d + 4) % 7 = 5 ∨ (d + 4) % 7 = 6 := by omega
  rcases hr with h | h | h | h | h | h | h
  · exact pick_working d 1 2 3 (by omega) (by omega) (by omega) (by omega)
      (by omega) (by omega) (by omega)
  · exact pick_working d 1 2 3 (by omega) (by omega) (by omega) (by omega)
      (by omega) (by omega) (by omega)
  · exact pick_working d 1 2 3 (by omega) (by omega) (by omega) (by omega)
      (by omega) (by omega) (by omega)
  · exact pick_working d 1 2 5 (by omega) (by omega) (by omega) (by omega)
      (by omega) (by omega) (by omega)
  · exact pick_working d 1 4 5 (by omega) (by omega) (by omega) (by omega)
      (by omega) (by omega) (by omega)
  · exact pick_working d 3 4 5 (by omega) (by omega) (by omega) (by omega)
      (by omega) (by omega) (by omega)
  · exact pick_working d 2 3 4 (by omega) (by omega) (by omega) (by omega)
      (by omega) (by omega) (by omega)

/-- The loop body of `calculateWorkingDays`: count working days among
`d, d+1, …, d+k-1`. -/
def countWorking (d : ℤ) : ℕ → ℤ
  | 0 => 0
  | k + 1 => (if isWorkingDay d then 1 else 0) + countWorking (d + 1) k

/-- `calculateWorkingDays(startDate, endDate)`: 0 when `start > end`,
otherwise the loop from `start+1` while `≤ end`. -/
def calculateWorkingDays (s e : ℤ) : ℤ :=
  if s > e then 0 else countWorking (s + 1) (e - s).toNat

/-- The loop of `addWorkingDays`, with explicit fuel (one unit per calendar
day stepped); `none` means the fuel ran out before `n` working days were
added.  `addWorkingDays_total` below shows `7 * n` fuel always suffices,
so the source's unbounded `while` loop terminates. -/
def awdGo : ℕ → ℤ → ℤ → Option ℤ
  | _, d, n =>
    if n ≤ 0 then some d
    else match ‹ℕ› with
      | 0 => none
      | f + 1 => if isWorkingDay (d + 1) then awdGo f (d + 1) (n - 1) else awdGo f (d + 1) n

/-- `addWorkingDays(startDate, workingDaysToAdd)` with the sufficient fuel. -/
def addWorkingDays (d n : ℤ) : Option ℤ := awdGo (7 * n.toNat) d n

theorem awdGo_nonpos (f : ℕ) (d n : ℤ) (h : n ≤ 0) : awdGo f d n = some d := by
  cases f <;> simp [awdGo, h]

theorem awdGo_pos_zero (d n : ℤ) (h : 0 < n) : awdGo 0 d n = none := by
  simp [awdGo]
  omega

theorem awdGo_pos_succ (f : ℕ) (d n : ℤ) (h : 0 < n) :
    awdGo (f + 1) d n =
      if isWorkingDay (d + 1) then awdGo f (d + 1) (n - 1) else awdGo f (d + 1) n := by
  have h' : ¬ n ≤ 0 := by omega
  simp [awdGo, h']

theorem awdGo_mono :
    ∀ (f : ℕ) (d n : ℤ) (e : ℤ), awdGo f d n = some e → awdGo (f + 1) d n = some e := by
  intro f
  induction f with
  | zero =>
      intro d n e h
      by_cases hn : n ≤ 0
      · rw [awdGo_nonpos _ _ _ hn] at h ⊢
        exact h
      · rw [awdGo_pos_zero d n (by omega)] at h
        exact absurd h (by simp)
  | succ f ih =>
      intro d n e h
      by_cases hn : n ≤ 0
      · rw [awdGo_nonpos _ _ _ hn] at h ⊢
        exact h
      · rw [awdGo_pos_succ _ _ _ (by omega)] at h
        rw [awdGo_pos_succ _ _ _ (by omega)]
        split_ifs at h ⊢ with hw
        · exact ih _ _ _ h
        · exact ih _ _ _ h

theorem awdGo_mono_le (f f' : ℕ) (d n : ℤ) (e : ℤ) (hle : f ≤ f')
    (h : awdGo f d n = some e) : awdGo f' d n = some e := by
  induction f' with
  | zero =>
      have : f = 0 := by omega
      rw [← this]; exact h
  | succ f' ih =>
      by_cases hf : f = f' + 1
      · rw [← hf]; exact h
      · exact awdGo_mono f' d n e (ih (by omega))

/-- Walking towards a known working day `k` steps ahead succeeds once the
smaller problem succeeds from every start. -/
theorem awdGo_reach :
    ∀ (k : ℕ) (d n : ℤ) (fuel : ℕ), 0 < n →
      isWorkingDay (d + 1 + k) = true →
      (∀ d' : ℤ, ∃ e, awdGo fuel d' (n - 1) = some e) →
      ∃ e, awdGo (fuel + k + 1) d n = some e := by
  intro k
  induction k with
  | zero =>
      intro d n fuel hn hw hrec
      rcases hrec (d + 1) with ⟨e, he⟩
      refine ⟨e, ?_⟩
      rw [awdGo_pos_succ _ _ _ hn]
      have : d + 1 + ((0 : ℕ) : ℤ) = d + 1 := by norm_num
      rw [this] at hw
      rw [if_pos hw]
      exact he
  | succ k ih =>
      intro d n fuel hn hw hrec
      by_cases hw1 : isWorkingDay (d + 1) = true
      · rcases hrec (d + 1) with ⟨e, he⟩
        refine ⟨e, ?_⟩
        have : fuel + (k + 1) + 1 = (fuel + k + 1) + 1 := by omega
        rw [this, awdGo_pos_succ _ _ _ hn, if_pos hw1]
        exact awdGo_mono_le fuel (fuel + k + 1) _ _ _ (by omega) he
      · have hw' : isWorkingDay (d + 1 + 1 + k) = true := by
          have harg : d + 1 + 1 + ((k : ℕ) : ℤ) = d + 1 + (((k : ℕ) + 1 : ℕ) : ℤ) := by
            push_cast; ring
          rw [harg]
          exact hw
        rcases ih (d + 1) n fuel hn hw' hrec with ⟨e, he⟩
        refine ⟨e, ?_⟩
        have : fuel + (k + 1) + 1 = (fuel + k + 1) + 1 := by omega
        rw [this, awdGo_pos_succ _ _ _ hn, if_neg (by simpa using hw1)]
        exact he

/-- `awdGo` succeeds from any start with fuel `7 * n`. -/
theorem awdGo_total : ∀ (m : ℕ) (d : ℤ), ∃ e, awdGo (7 * m) d (m : ℤ) = some e := by
  intro m
  induction m with
  | zero => intro d; exact ⟨d, awdGo_nonpos _ _ _ (by norm_num)⟩
  | succ m ih =>
      intro d
      rcases exists_working_in_week d with ⟨k, hk1, hk7, hw⟩
      have hk : ∃ k' : ℕ, (k' : ℤ) = k - 1 ∧ k' ≤ 6 := ⟨(k - 1).toNat, by omega, by omega⟩
      rcases hk with ⟨k', hk'1, hk'6⟩
      have hw' : isWorkingDay (d + 1 + (k' : ℤ)) = true := by
        rw [show d + 1 + (k' : ℤ) = d + k by omega]
        exact hw
      have hrec : ∀ d' : ℤ, ∃ e, awdGo (7 * m) d' (((m : ℕ) + 1 : ℤ) - 1) = some e := by
        intro d'
        rcases ih d' with ⟨e, he⟩
        exact ⟨e, by rw [show ((m : ℕ) + 1 : ℤ) - 1 = (m : ℤ) by ring]; exact he⟩
      have := awdGo_reach k' d ((m : ℕ) + 1 : ℤ) (7 * m) (by omega) hw'
        (by intro d'; exact hrec d')
      rcases this with ⟨e, he⟩
      refine ⟨e, ?_⟩
      have hle : 7 * m + k' + 1 ≤ 7 * (m + 1) := by omega
      have := awdGo_mono_le _ _ _ _ _ hle he
      rw [show (((m + 1 : ℕ)) : ℤ) = ((m : ℕ) + 1 : ℤ) by push_cast; ring]
      exact this

/-- Whatever `awdGo` returns satisfies: the result is ≥ the start, and the
working days strictly after the start up to the result number exactly
`n` (clamped at 0). -/
theorem awdGo_count :
    ∀ (f : ℕ) (d n : ℤ) (e : ℤ), awdGo f d n = some e →
      d ≤ e ∧ countWorking (d + 1) (e - d).toNat = (n.toNat : ℤ) := by
  intro f
  induction f with
  | zero =>
      intro d n e h
      by_cases hn : n ≤ 0
      · rw [awdGo_nonpos _ _ _ hn] at h
        have he : e = d := by injection h with h'; omega
        rw [he]
        refine ⟨le_refl d, ?_⟩
        rw [show (d - d).toNat = 0 by omega]
        simp only [countWorking]
        omega
      · rw [awdGo_pos_zero d n (by omega)] at h
        exact absurd h (by simp)
  | succ f ih =>
      intro d n e h
      by_cases hn : n ≤ 0
      · rw [awdGo_nonpos _ _ _ hn] at h
        have he : e = d := by injection h with h'; omega
        rw [he]
        refine ⟨le_refl d, ?_⟩
        rw [show (d - d).toNat = 0 by omega]
        simp only [countWorking]
        omega
      · rw [awdGo_pos_succ _ _ _ (by omega)] at h
        split_ifs at h with hw
        · have hrec := ih _ _ _ h
          refine ⟨by omega, ?_⟩
          have hk : (e - d).toNat = (e - (d + 1)).toNat + 1 := by omega
          rw [hk]
          simp only [countWorking, hw, if_true]
          rw [show d + 1 + 1 = d + 1 + 1 by rfl]
          have := hrec.2
          omega
        · have hrec := ih _ _ _ h
          refine ⟨by omega, ?_⟩
          have hk : (e - d).toNat = (e - (d + 1)).toNat + 1 := by omega
          rw [hk]
          show (if isWorkingDay (d + 1) then (1 : ℤ) else 0)
              + countWorking (d + 1 + 1) (e - (d + 1)).toNat = (n.toNat : ℤ)
          rw [if_neg hw]
          have := hrec.2
          omega

theorem countWorking_eq_card :
    ∀ (k : ℕ) (d : ℤ),
      countWorking d k
        = ((Finset.Ico d (d + k)).filter (fun x => isWorkingDay x = true)).card := by
  intro k
  induction k with
  | zero =>
      intro d
      simp [countWorking]
  | succ k ih =>
      intro d
      have hsplit : Finset.Ico d (d + ((k : ℕ) + 1 : ℕ)) = insert d (Finset.Ico (d + 1) (d + 1 + k)) := by
        ext x
        simp only [Finset.mem_Ico, Finset.mem_insert]
        omega
      rw [hsplit, Finset.filter_insert]
      have hnot : d ∉ (Finset.Ico (d + 1) (d + 1 + (k : ℤ))).filter (fun x => isWorkingDay x = true) := by
        simp only [Finset.mem_filter, Finset.mem_Ico]
        omega
      simp only [countWorking]
      split_ifs with hw
      · rw [Finset.card_insert_of_not_mem hnot, ih (d + 1)]
        push_cast
        omega
      · rw [ih (d + 1)]
        omega

/-- Claim C7: for `start ≤ end` the function counts exactly the working
days in the half-open-below interval `(start, end]`, and for
`start > end` it returns 0. -/
theorem c7_calculateWorkingDays_count (s e : ℤ) :
    (calculateWorkingDays s e : ℤ)
        = ((Finset.Ioc s e).filter (fun d => isWorkingDay d = true)).card ∧
    (s > e → calculateWorkingDays s e = 0) := by
  constructor
  · by_cases h : s > e
    · rw [calculateWorkingDays, if_pos h, Finset.Ioc_eq_empty (by omega)]
      simp
    · rw [calculateWorkingDays, if_neg h, countWorking_eq_card]
      have harg : Finset.Ico (s + 1) (s + 1 + ((e - s).toNat : ℤ)) = Finset.Ioc s e := by
        ext x
        simp only [Finset.mem_Ico, Finset.mem_Ioc]
        omega
      rw [harg]
  · intro h
    rw [calculateWorkingDays, if_pos h]

/-- Witness for C7 at concrete inputs (2026-01-01 to 2026-01-08, and a
reversed pair). -/
theorem c7_witness :
    ((calculateWorkingDays 20454 20461 : ℤ)
        = ((Finset.Ioc (20454 : ℤ) 20461).filter (fun d => isWorkingDay d = true)).card) ∧
    calculateWorkingDays 20461 20454 = 0 :=
  ⟨(c7_calculateWorkingDays_count 20454 20461).1,
   (c7_calculateWorkingDays_count 20461 20454).2 (by decide)⟩

/-- Claim C9: adding `n ≥ 0` working days to `d` and then counting the
working days from `d` to the result gives back exactly `n`. -/
theorem c9_addWorkingDays_roundtrip (d n : ℤ) (hn : 0 ≤ n) :
    ∃ e, addWorkingDays d n = some e ∧ calculateWorkingDays d e = n := by
  obtain ⟨e, he⟩ := awdGo_total n.toNat d
  rw [show ((n.toNat : ℕ) : ℤ) = n by omega] at he
  refine ⟨e, he, ?_⟩
  have hcount := awdGo_count _ _ _ _ he
  rw [calculateWorkingDays, if_neg (by omega)]
  have := hcount.2
  omega

/-- Witness for C9 at `d = 2026-01-01`, `n = 3`. -/
theorem c9_witness :
    ∃ e, addWorkingDays 20454 3 = some e ∧ calculateWorkingDays 20454 e = 3 :=
  c9_addWorkingDays_roundtrip 20454 3 (by decide)

/-- Claim C10: the `addWorkingDays` loop never runs for `n ≤ 0` (the start
date comes back unchanged, with any fuel), and for `n ≥ 0` the loop
terminates within `7 * n` calendar steps because every week contains a
working day. -/
theorem c10_addWorkingDays_terminates :
    (∀ (f : ℕ) (d n : ℤ), n ≤ 0 → awdGo f d n = some d) ∧
    (∀ d n : ℤ, 0 ≤ n → (addWorkingDays d n).isSome = true) := by
  constructor
  · exact fun f d n h => awdGo_nonpos f d n h
  · intro d n hn
    obtain ⟨e, he⟩ := awdGo_total n.toNat d
    rw [show ((n.toNat : ℕ) : ℤ) = n by omega] at he
    simp [addWorkingDays, he]

/-- Witness for C10: a negative count returns the start date; a positive
count succeeds. -/
theorem c10_witness :
    awdGo 5 20454 (-2) = some 20454 ∧ (addWorkingDays 20454 2).isSome = true :=
  ⟨c10_addWorkingDays_terminates.1 5 20454 (-2) (by decide),
   c10_addWorkingDays_terminates.2 20454 2 (by decide)⟩

/-! ## Due-date string parsing and formatting -/

/-- JS `string.split('/')` on the character list of a string. -/
def splitSlash : List Char → List (List Char)
  | [] => [[]]
  | c :: rest =>
      if c = '/' then [] :: splitSlash rest
      else
        match splitSlash rest with
        | [] => [[c]]
        | g :: gs => (c :: g) :: gs

def allDigits (l : List Char) : Bool := l.all (fun c => c.isDigit)

def allAlpha (l : List Char) : Bool := l.all (fun c => c.isAlpha)

/-- JS `parseInt` on an all-digit string. -/
def digitsToNat (l : List Char) : ℕ := l.foldl (fun a c => 10 * a + (c.toNat - 48)) 0

/-- JS `toLowerCase` (ASCII). -/
def lowerL (l : List Char) : List Char := l.map Char.toLower

/-- Does `q` occur as a prefix of `s`? -/
def leadsWith : List Char → List Char → Bool
  | [], _ => true
  | _ :: _, [] => false
  | q :: qs, c :: cs => q == c && leadsWith qs cs

/-- JS `s.includes(q)`: `q` occurs contiguously in `s`. -/
def hasSub : List Char → List Char → Bool
  | [], q => leadsWith q []
  | c :: cs, q => leadsWith q (c :: cs) || hasSub cs q

def monthNames : List (List Char) :=
  [ "Jan".data, "Feb".data, "Mar".data, "Apr".data, "May".data, "Jun".data,
    "Jul".data, "Aug".data, "Sep".data, "Oct".data, "Nov".data, "Dec".data]

/-- JS `new Date(y, m0, d)` (0-based month, arbitrary ints) as a day
number: the month is normalised into the year and the day rolls over
linearly. -/
def mkDate (y m0 d : ℤ) : ℤ :=
  daysFromCivil ((y * 12 + m0) / 12) ((y * 12 + m0) % 12 + 1) d

/-- The natural-language tail of `parseDueDate`: the literals
`today`/`tomorrow`, strings containing `next` (rejected), and the final
fall-back to the host's native `new Date(string)` parser, which is kept
abstract as `native`. -/
def parseTail (today : ℤ) (native : String → Option ℤ) (s : String) : Option ℤ :=
  if lowerL s.data = "today".data then some today
  else if lowerL s.data = "tomorrow".data then some (today + 1)
  else if hasSub (lowerL s.data) ("next".data) then none
  else native s

/-- `parseDueDate(dateString)`.  `today` is the current date (`new Date()`),
whose year is the `currentYear` the source reads with `getFullYear()`. -/
def parseDueDate (today : ℤ) (native : String → Option ℤ) (s : String) : Option ℤ :=
  if s.data = [] then none
  else
    let parts := splitSlash s.data
    let a := parts.getD 0 []
    let b := parts.getD 1 []
    if parts.length = 2 ∧ 1 ≤ a.length ∧ a.length ≤ 2 ∧ allDigits a = true
        ∧ 1 ≤ b.length ∧ b.length ≤ 2 ∧ allDigits b = true then
      some (mkDate (civilFromDays today).1 ((digitsToNat a : ℤ) - 1) (digitsToNat b))
    else if parts.length = 2 ∧ 1 ≤ a.length ∧ a.length ≤ 2 ∧ allDigits a = true
        ∧ b.length = 3 ∧ allAlpha b = true then
      (monthNames.findIdx? (fun nm => lowerL nm == lowerL b)).map
        (fun mi => mkDate (civilFromDays today).1 (mi : ℤ) (digitsToNat a))
    else parseTail today native s

/-- `formatDateToDDMMM(date)` for a `Date` argument: `D/MMM`. -/
def formatDateToDDMMM (z : ℤ) : String :=
  ⟨Nat.toDigits 10 (civilFromDays z).2.2.toNat
    ++ '/' :: monthNames.getD ((civilFromDays z).2.1 - 1).toNat []⟩

/-- `getWorkingDaysUntilDue(dueDate)` for a string argument: `null` for an
absent or unparseable string, otherwise the working-day count from today
(midnight) to the parsed date (midnight). -/
def getWorkingDaysUntilDue (today : ℤ) (native : String → Option ℤ) (due : String) : Option ℤ :=
  if due.data = [] then none
  else
    match parseDueDate today native due with
    | none => none
    | some d => some (calculateWorkingDays today d)

def overdueSample : String := "3/Mar"

set_option maxRecDepth 10000 in
/-- Claim C1 (the code, evaluated at the failing input): with today =
2026-03-10 (day 20522) and due-date string `3/Mar` (2026-03-03, day 20515,
a week in the past), `getWorkingDaysUntilDue` returns `some 0`, not a
negative count: `calculateWorkingDays` clamps `start > end` to 0, so the
overdue branch claimed by the spec (and dead-coded in the UI's
`workingDaysLeft < 0` styling) is unreachable. -/
theorem c1_overdue_returns_zero (native : String → Option ℤ) :
    parseDueDate 20522 native overdueSample = some 20515 ∧
    (20515 : ℤ) < 20522 ∧
    getWorkingDaysUntilDue 20522 native overdueSample = some 0 := by
  refine ⟨?_, by norm_num, ?_⟩ <;> rfl

theorem digits_spec (n : ℕ) (h1 : 1 ≤ n) (h2 : n ≤ 31) :
    1 ≤ (Nat.toDigits 10 n).length ∧ (Nat.toDigits 10 n).length ≤ 2 ∧
    allDigits (Nat.toDigits 10 n) = true ∧
    digitsToNat (Nat.toDigits 10 n) = n ∧
    '/' ∉ Nat.toDigits 10 n := by
  interval_cases n <;> decide

theorem monthName_spec (i : ℕ) (h : i < 12) :
    (monthNames.getD i []).length = 3 ∧
    allAlpha (monthNames.getD i []) = true ∧
    allDigits (monthNames.getD i []) = false ∧
    '/' ∉ monthNames.getD i [] ∧
    monthNames.findIdx? (fun nm => lowerL nm == lowerL (monthNames.getD i [])) = some i := by
  interval_cases i <;> decide

theorem splitSlash_no_slash : ∀ l : List Char, '/' ∉ l → splitSlash l = [l] := by
  intro l
  induction l with
  | nil => intro _; rfl
  | cons c cs ih =>
      intro h
      have hc : ¬ c = '/' := by
        intro hx
        exact h (hx ▸ List.mem_cons_self c cs)
      have hcs : '/' ∉ cs := fun hm => h (List.mem_cons_of_mem _ hm)
      simp only [splitSlash, if_neg hc, ih hcs]

theorem splitSlash_append : ∀ (a b : List Char), '/' ∉ a →
    splitSlash (a ++ '/' :: b) = a :: splitSlash b := by
  intro a
  induction a with
  | nil =>
      intro b _
      simp [splitSlash]
  | cons c cs ih =>
      intro b h
      have hc : ¬ c = '/' := by
        intro hx
        exact h (hx ▸ List.mem_cons_self c cs)
      have hcs : '/' ∉ cs := fun hm => h (List.mem_cons_of_mem _ hm)
      rw [show (c :: cs) ++ '/' :: b = c :: (cs ++ '/' :: b) from rfl]
      simp only [splitSlash, if_neg hc]
      rw [ih b hcs]

theorem mkDate_norm (y m0 dd : ℤ) (h0 : 0 ≤ m0) (h1 : m0 < 12) :
    mkDate y m0 dd = daysFromCivil y (m0 + 1) dd := by
  rw [mkDate, show (y * 12 + m0) / 12 = y by omega, show (y * 12 + m0) % 12 = m0 by omega]

/-- Claim C8: for every date `d` whose year is the current year (the year
of `today`), formatting to `D/MMM` and parsing back returns exactly `d`. -/
theorem c8_parse_format_roundtrip (today d : ℤ) (native : String → Option ℤ)
    (h : (civilFromDays d).1 = (civilFromDays today).1) :
    parseDueDate today native (formatDateToDDMMM d) = some d := by
  obtain ⟨hrt, hm1, hm12, hd1, hd31⟩ := civilFromDays_spec d
  have hmiLt : ((civilFromDays d).2.1 - 1).toNat < 12 := by omega
  have hmon := monthName_spec ((civilFromDays d).2.1 - 1).toNat hmiLt
  have hdig := digits_spec (civilFromDays d).2.2.toNat (by omega) (by omega)
  set A := Nat.toDigits 10 (civilFromDays d).2.2.toNat with hA
  set B := monthNames.getD ((civilFromDays d).2.1 - 1).toNat [] with hB
  have hsdata : (formatDateToDDMMM d).data = A ++ '/' :: B := rfl
  have hne2 : ¬((formatDateToDDMMM d).data = []) := by
    rw [hsdata]
    intro hx
    have := congrArg List.length hx
    simp at this
  have hsplit : splitSlash (formatDateToDDMMM d).data = [A, B] := by
    rw [hsdata, splitSlash_append A B hdig.2.2.2.2, splitSlash_no_slash B hmon.2.2.2.1]
  rw [parseDueDate, if_neg hne2]
  simp only [hsplit, List.getD_cons_zero, List.getD_cons_succ, List.length_cons,
    List.length_nil, hdig.1, hdig.2.1, hdig.2.2.1, hdig.2.2.2.1, hmon.1, hmon.2.1,
    hmon.2.2.1, hmon.2.2.2.2, Option.map_some']
  norm_num
  rw [show ((((civilFromDays d).2.1.toNat - 1 : ℕ)) : ℤ) = (civilFromDays d).2.1 - 1 by omega]
  rw [show ((civilFromDays d).2.2 ⊔ 0) = (civilFromDays d).2.2 by omega]
  rw [mkDate_norm _ _ _ (by omega) (by omega)]
  rw [show (civilFromDays d).2.1 - 1 + 1 = (civilFromDays d).2.1 by ring]
  rw [← h, hrt]

/-- Witness for C8 at `d = 2026-03-05`, `today = 2026-01-01` (same year). -/
theorem c8_witness :
    parseDueDate 20454 (fun _ => none) (formatDateToDDMMM 20517) = some 20517 :=
  c8_parse_format_roundtrip 20454 20517 (fun _ => none) (by decide)

/-! ## The REST API surface (server/index.js) -/

structure STask where
  id : ℤ
  name : String
  type : String
  status : String
  startDate : String
  dueDate : String
  notes : String
  completedAt : Option ℤ
deriving DecidableEq

structure CreateInput where
  name : String
  type : Option String
  status : Option String
  startDate : Option String
  dueDate : Option String
  notes : Option String
deriving DecidableEq

structure UpdateInput where
  name : Option String
  type : Option String
  status : Option String
  startDate : Option String
  dueDate : Option String
  notes : Option String
deriving DecidableEq

/-- JS `x || dflt` on an optional string field (absent and `''` both fall
back). -/
def jsOrStr (v : Option String) (dflt : String) : String :=
  match v with
  | none => dflt
  | some s => if s = "" then dflt else s

/-- JS `x ?? ''`. -/
def jsNullish (v : Option String) : String := v.getD ""

structure ServerState where
  tasks : List STask
  nextId : ℤ
deriving DecidableEq

/-- POST /api/tasks: create with defaults; `completedAt` is never set. -/
def createTask (st : ServerState) (inp : CreateInput) : ServerState :=
  { tasks := st.tasks ++
      [ { id := st.nextId, name := inp.name,
          type := jsOrStr inp.type ("Regular"),
          status := jsOrStr inp.status ("My action"),
          startDate := jsNullish inp.startDate,
          dueDate := jsOrStr inp.dueDate (""),
          notes := jsOrStr inp.notes (""),
          completedAt := none } ],
    nextId := st.nextId + 1 }

/-- The field updates of PUT /api/tasks/:id on the matched task, including
the `completedAt` toggling against the literal status string `'Done'`. -/
def applyUpdate (t : STask) (upd : UpdateInput) (now : ℤ) : STask :=
  let base := { t with
    name := upd.name.getD t.name,
    type := upd.type.getD t.type,
    startDate := upd.startDate.getD t.startDate,
    dueDate := upd.dueDate.getD t.dueDate,
    notes := upd.notes.getD t.notes }
  match upd.status with
  | none => base
  | some s =>
      let c :=
        if s = "Done" ∧ t.status ≠ "Done" then some now
        else if s ≠ "Done" ∧ t.status = "Done" then none
        else t.completedAt
      { base with status := s, completedAt := c }

/-- PUT /api/tasks/:id; an unknown id makes prisma throw, the handler
catches and the state is unchanged. -/
def updateTask (st : ServerState) (tid : ℤ) (upd : UpdateInput) (now : ℤ) : ServerState :=
  if st.tasks.any (fun t => t.id = tid) then
    { st with tasks := st.tasks.map (fun t => if t.id = tid then applyUpdate t upd now else t) }
  else st

inductive ApiOp where
  | create (inp : CreateInput)
  | update (tid : ℤ) (upd : UpdateInput) (now : ℤ)

def applyOp (st : ServerState) : ApiOp → ServerState
  | .create inp => createTask st inp
  | .update tid upd now => updateTask st tid upd now

def applyOps (st : ServerState) (ops : List ApiOp) : ServerState :=
  ops.foldl applyOp st

/-- The claimed invariant: `completedAt` is non-null iff the status is the
done tag. -/
def doneInv (st : ServerState) : Prop :=
  ∀ t ∈ st.tasks, (t.completedAt ≠ none ↔ t.status = "Done")

def initialState : ServerState := { tasks := [], nextId := 1 }

/-- A create call whose effective status is the done tag. -/
def doneCreate : CreateInput :=
  { name := "t", type := none, status := some ("Done"),
    startDate := none, dueDate := none, notes := none }

def doneCreatedTask : STask :=
  { id := 1, name := "t", type := "Regular", status := "Done",
    startDate := "", dueDate := "", notes := "", completedAt := none }

/-- Counterexample to claim C3: a task created directly with status
`'Done'` has `completedAt = null`, so the claimed iff fails after this
one-call sequence. -/
theorem c3_create_done_breaks_invariant :
    ¬ doneInv (applyOps initialState [ApiOp.create doneCreate]) := by
  intro h
  have := h doneCreatedTask (by decide)
  simp [doneCreatedTask] at this

def validOp : ApiOp → Prop
  | .create inp => jsOrStr inp.status ("My action") ≠ "Done"
  | .update _ _ _ => True

theorem doneInv_preserved (st : ServerState) (op : ApiOp)
    (hinv : doneInv st) (hop : validOp op) : doneInv (applyOp st op) := by
  cases op with
  | create inp =>
      intro t ht
      simp only [applyOp, createTask, List.mem_append, List.mem_singleton] at ht
      rcases ht with ht | ht
      · exact hinv t ht
      · rw [ht]
        simp only [validOp] at hop
        simp [hop]
  | update tid upd now =>
      intro t ht
      simp only [applyOp, updateTask] at ht
      split_ifs at ht with hex
      · simp only [List.mem_map] at ht
        rcases ht with ⟨t0, ht0, hmap⟩
        have hinv0 := hinv t0 ht0
        by_cases hid : t0.id = tid
        · rw [if_pos hid] at hmap
          rw [← hmap]
          cases hst : upd.status with
          | none => simpa [applyUpdate, hst] using hinv0
          | some s =>
              simp only [applyUpdate, hst]
              by_cases hs : s = "Done"
              · by_cases ht0s : t0.status = "Done"
                · rw [if_neg (by tauto), if_neg (by tauto)]
                  simp only [hs, iff_true]
                  exact hinv0.2 ht0s
                · rw [if_pos ⟨hs, ht0s⟩]
                  simp [hs]
              · by_cases ht0s : t0.status = "Done"
                · rw [if_neg (by tauto), if_pos ⟨hs, ht0s⟩]
                  simp [hs]
                · rw [if_neg (by tauto), if_neg (by tauto)]
                  have hnone : t0.completedAt = none := by
                    by_contra hxx
                    exact ht0s (hinv0.1 hxx)
                  simp [hnone, hs]
        · rw [if_neg hid] at hmap
          rw [← hmap]
          exact hinv0
      · exact hinv t ht

theorem doneInv_applyOps (ops : List ApiOp) :
    ∀ st : ServerState, doneInv st → (∀ op ∈ ops, validOp op) →
      doneInv (applyOps st ops) := by
  induction ops with
  | nil => intro st h _; exact h
  | cons op ops ih =>
      intro st h hv
      have h1 := doneInv_preserved st op h (hv op (List.mem_cons_self op ops))
      exact ih (applyOp st op) h1 (fun o ho => hv o (List.mem_cons_of_mem _ ho))

/-- Claim C3 (amended): after any sequence of create and update calls in
which every create's effective status differs from the literal `'Done'`,
every stored task satisfies `completedAt ≠ null ↔ status = 'Done'`; an
update that moves a task's status to `'Done'` stamps `completedAt` with
the current time, and an update that moves it away clears it to null. -/
theorem c3_done_invariant :
    (∀ ops : List ApiOp, (∀ op ∈ ops, validOp op) →
      doneInv (applyOps initialState ops)) ∧
    (∀ (t : STask) (upd : UpdateInput) (now : ℤ),
      upd.status = some ("Done") → t.status ≠ "Done" →
      (applyUpdate t upd now).completedAt = some now) ∧
    (∀ (t : STask) (upd : UpdateInput) (now : ℤ) (s : String),
      upd.status = some s → s ≠ "Done" → t.status = "Done" →
      (applyUpdate t upd now).completedAt = none) := by
  refine ⟨fun ops hv => doneInv_applyOps ops initialState
      (by intro t ht; simp [initialState] at ht) hv,
    ?_, ?_⟩
  · intro t upd now hst ht
    simp [applyUpdate, hst, ht]
  · intro t upd now s hst hs ht
    simp [applyUpdate, hst, hs, ht]

def witnessCreate : CreateInput :=
  { name := "a", type := none, status := none,
    startDate := none, dueDate := none, notes := none }

def witnessDoneUpdate : UpdateInput :=
  { name := none, type := none, status := some ("Done"),
    startDate := none, dueDate := none, notes := none }

/-- Witness for C3 at a concrete call sequence: create (default status),
update to `'Done'`, and the resulting invariant. -/
theorem c3_witness :
    doneInv (applyOps initialState
      [ApiOp.create witnessCreate, ApiOp.update 1 witnessDoneUpdate 777]) :=
  c3_done_invariant.1 _ (by
    intro op hop
    fin_cases hop
    · show jsOrStr witnessCreate.status ("My action") ≠ "Done"
      decide
    · exact trivial)

/-! ## Settings endpoints (PUT /api/settings/...) -/

structure SettingRow where
  id : ℤ
  name : String
  color : Option String
  order : ℤ
deriving DecidableEq

structure PostedSetting where
  name : String
  color : Option String
deriving DecidableEq

structure PostedPerson where
  id : Option ℤ
  name : String
  color : Option String
deriving DecidableEq

/-- Rows created by the types/statuses handlers: one per posted record,
`order = index`, ids from the autoincrement counter. -/
def createdRows : List PostedSetting → ℤ → ℤ → List SettingRow
  | [], _, _ => []
  | p :: ps, nid, idx =>
      { id := nid, name := p.name, color := p.color, order := idx }
        :: createdRows ps (nid + 1) (idx + 1)

/-- PUT /api/settings/types — and PUT /api/settings/statuses, whose handler
is verbatim analogous: `deleteMany` then recreate every posted record. -/
def putTypes (_tbl : List SettingRow) (nextId : ℤ) (posted : List PostedSetting) : List SettingRow :=
  createdRows posted nextId 0

/-- JS `person.color || null`. -/
def jsColorOpt (c : Option String) : Option String :=
  match c with
  | none => none
  | some s => if s = "" then none else some s

/-- `persons.filter(p => p.id).map(p => p.id)`: the truthy posted ids. -/
def truthyIds (posted : List PostedPerson) : List ℤ :=
  posted.filterMap (fun p =>
    match p.id with
    | some i => if i ≠ 0 then some i else none
    | none => none)

/-- `prisma.person.update({where: {id: i}, data: …})`: rewrite the row with
that primary key in place. -/
def updateRow (tbl : List SettingRow) (i : ℤ) (nm : String) (c : Option String) (ord : ℤ) :
    List SettingRow :=
  tbl.map (fun r =>
    if r.id = i then { id := i, name := nm, color := c, order := ord } else r)

/-- The row of a table with the given primary key. -/
def lookupId (tbl : List SettingRow) (i : ℤ) : Option SettingRow :=
  tbl.find? (fun r => decide (r.id = i))

/-- The per-posted-entry loop of PUT /api/settings/persons, applied to the
table state: an entry whose truthy id exists updates that row in place
(so posted duplicates of one id rewrite the same row repeatedly);
anything else appends a freshly created row. -/
def putPersonsGo : List PostedPerson → ℤ → ℤ → List ℤ → List SettingRow → List SettingRow
  | [], _, _, _, tbl => tbl
  | p :: ps, nid, idx, exIds, tbl =>
      match p.id with
      | some i =>
          if i ≠ 0 ∧ i ∈ exIds then
            putPersonsGo ps nid (idx + 1) exIds (updateRow tbl i p.name (jsColorOpt p.color) idx)
          else
            putPersonsGo ps (nid + 1) (idx + 1) exIds
              (tbl ++ [ { id := nid, name := p.name, color := jsColorOpt p.color, order := idx } ])
      | none =>
          putPersonsGo ps (nid + 1) (idx + 1) exIds
            (tbl ++ [ { id := nid, name := p.name, color := jsColorOpt p.color, order := idx } ])

/-- PUT /api/settings/persons: delete the rows whose id is not among the
truthy posted ids, then run the update-or-create loop over the posted
entries (the update/create decision uses the ORIGINAL id set, captured
before the deletion). -/
def putPersons (tbl : List SettingRow) (nextId : ℤ) (posted : List PostedPerson) : List SettingRow :=
  putPersonsGo posted nextId 0 (tbl.map (fun r => r.id))
    (tbl.filter (fun r => decide (r.id ∈ truthyIds posted)))

def personsTable0 : List SettingRow :=
  [ { id := 1, name := "Alice", color := none, order := 0 } ]

def personsPost0 : List PostedPerson :=
  [ { id := some 1, name := "Alicia", color := none } ]

/-- Counterexample to claim C2: saving persons with a posted entry whose id
already exists keeps that row id — the persons handler is an id-preserving
upsert, not delete-all-then-recreate, so a pre-existing row identity IS
preserved. -/
theorem c2_persons_preserve_identity :
    (putPersons personsTable0 2 personsPost0).map (fun r => r.id) = [1] ∧
    personsTable0.map (fun r => r.id) = [1] := by
  constructor <;> rfl

theorem createdRows_length :
    ∀ (posted : List PostedSetting) (nid idx : ℤ),
      (createdRows posted nid idx).length = posted.length := by
  intro posted
  induction posted with
  | nil => intro nid idx; rfl
  | cons p ps ih => intro nid idx; simp [createdRows, ih]

theorem createdRows_spec :
    ∀ (posted : List PostedSetting) (nid idx : ℤ) (i : ℕ) (r : SettingRow) (p : PostedSetting),
      (createdRows posted nid idx)[i]? = some r → posted[i]? = some p →
      r.name = p.name ∧ r.color = p.color ∧ r.order = idx + i ∧ r.id = nid + i := by
  intro posted
  induction posted with
  | nil => intro nid idx i r p h _; simp [createdRows] at h
  | cons q qs ih =>
      intro nid idx i r p h hp
      cases i with
      | zero =>
          simp only [createdRows, List.getElem?_cons_zero, Option.some.injEq] at h hp
          rw [← h, ← hp]
          norm_num
      | succ j =>
          simp only [createdRows, List.getElem?_cons_succ] at h hp
          have := ih (nid + 1) (idx + 1) j r p h hp
          push_cast
          refine ⟨this.1, this.2.1, by omega, by omega⟩

def uTargets : List PostedPerson → List ℤ → List ℤ
  | [], _ => []
  | p :: ps, exIds =>
      match p.id with
      | some i => if i ≠ 0 ∧ i ∈ exIds then i :: uTargets ps exIds else uTargets ps exIds
      | none => uTargets ps exIds

theorem uTargets_sublist :
    ∀ (ps : List PostedPerson) (exIds : List ℤ),
      List.Sublist (uTargets ps exIds) (truthyIds ps) := by
  intro ps
  induction ps with
  | nil => intro exIds; simp [uTargets, truthyIds]
  | cons p ps ih =>
      intro exIds
      cases hpid : p.id with
      | none => simpa [uTargets, truthyIds, List.filterMap_cons, hpid] using ih exIds
      | some j =>
          by_cases hj : j ≠ 0
          · by_cases hmem : j ∈ exIds
            · simp only [uTargets, truthyIds, List.filterMap_cons, hpid, if_pos hj,
                if_pos (⟨hj, hmem⟩ : j ≠ 0 ∧ j ∈ exIds)]
              exact List.Sublist.cons₂ j (ih exIds)
            · simp only [uTargets, truthyIds, List.filterMap_cons, hpid, if_pos hj,
                if_neg (show ¬(j ≠ 0 ∧ j ∈ exIds) by tauto)]
              exact List.Sublist.cons j (ih exIds)
          · simp only [uTargets, truthyIds, List.filterMap_cons, hpid, if_neg hj,
              if_neg (show ¬(j ≠ 0 ∧ j ∈ exIds) by tauto)]
            exact ih exIds

theorem uTargets_mem_exIds :
    ∀ (ps : List PostedPerson) (exIds : List ℤ) (i : ℤ),
      i ∈ uTargets ps exIds → i ∈ exIds := by
  intro ps
  induction ps with
  | nil => intro exIds i h; simp [uTargets] at h
  | cons p ps ih =>
      intro exIds i h
      cases hpid : p.id with
      | none =>
          simp only [uTargets, hpid] at h
          exact ih exIds i h
      | some j =>
          simp only [uTargets, hpid] at h
          split_ifs at h with hc
          · rcases List.mem_cons.mp h with h | h
            · rw [h]; exact hc.2
            · exact ih exIds i h
          · exact ih exIds i h

theorem mem_uTargets_of_entry :
    ∀ (ps : List PostedPerson) (exIds : List ℤ) (k : ℕ) (p : PostedPerson) (j : ℤ),
      ps[k]? = some p → p.id = some j → j ≠ 0 → j ∈ exIds → j ∈ uTargets ps exIds := by
  intro ps
  induction ps with
  | nil => intro exIds k p j h _ _ _; simp at h
  | cons q qs ih =>
      intro exIds k p j hk hpid hj hmem
      cases k with
      | zero =>
          simp only [List.getElem?_cons_zero, Option.some.injEq] at hk
          subst hk
          simp only [uTargets, hpid, if_pos (⟨hj, hmem⟩ : j ≠ 0 ∧ j ∈ exIds)]
          exact List.mem_cons_self j _
      | succ n =>
          simp only [List.getElem?_cons_succ] at hk
          have hrec := ih exIds n p j hk hpid hj hmem
          cases hqid : q.id with
          | none => simpa [uTargets, hqid] using hrec
          | some jq =>
              by_cases hc : jq ≠ 0 ∧ jq ∈ exIds
              · simp only [uTargets, hqid, if_pos hc]
                exact List.mem_cons_of_mem _ hrec
              · simpa [uTargets, hqid, hc] using hrec

theorem lookupId_updateRow_ne (tbl : List SettingRow) (j i : ℤ) (nm : String)
    (c : Option String) (ord : ℤ) (hne : i ≠ j) :
    lookupId (updateRow tbl j nm c ord) i = lookupId tbl i := by
  induction tbl with
  | nil => rfl
  | cons r rs ih =>
      rw [updateRow, List.map_cons]
      by_cases hr : r.id = j
      · rw [if_pos hr]
        simp only [lookupId]
        rw [List.find?_cons_of_neg _ (by simp; exact fun hx => hne hx.symm),
          List.find?_cons_of_neg _ (by simp [hr]; exact fun hx => hne hx.symm)]
        exact ih
      · rw [if_neg hr]
        simp only [lookupId]
        by_cases hri : r.id = i
        · rw [List.find?_cons_of_pos _ (by simp [hri]), List.find?_cons_of_pos _ (by simp [hri])]
        · rw [List.find?_cons_of_neg _ (by simp [hri]), List.find?_cons_of_neg _ (by simp [hri])]
          exact ih

theorem lookupId_updateRow_eq (tbl : List SettingRow) (j : ℤ) (nm : String)
    (c : Option String) (ord : ℤ) (r0 : SettingRow) (h : lookupId tbl j = some r0) :
    lookupId (updateRow tbl j nm c ord) j
      = some { id := j, name := nm, color := c, order := ord } := by
  induction tbl with
  | nil => simp [lookupId] at h
  | cons r rs ih =>
      rw [updateRow, List.map_cons]
      by_cases hr : r.id = j
      · rw [if_pos hr]
        simp only [lookupId]
        rw [List.find?_cons_of_pos _ (by simp)]
      · rw [if_neg hr]
        simp only [lookupId] at h ⊢
        rw [List.find?_cons_of_neg _ (by simp [hr])] at h
        rw [List.find?_cons_of_neg _ (by simp [hr])]
        exact ih h

theorem lookupId_append_ne (tbl : List SettingRow) (x : SettingRow) (i : ℤ)
    (hne : x.id ≠ i) : lookupId (tbl ++ [x]) i = lookupId tbl i := by
  induction tbl with
  | nil =>
      simp only [List.nil_append, lookupId]
      rw [List.find?_cons_of_neg _ (by simp [hne])]
  | cons r rs ih =>
      simp only [List.cons_append, lookupId] at ih ⊢
      by_cases hri : r.id = i
      · rw [List.find?_cons_of_pos _ (by simp [hri]), List.find?_cons_of_pos _ (by simp [hri])]
      · rw [List.find?_cons_of_neg _ (by simp [hri]), List.find?_cons_of_neg _ (by simp [hri])]
        exact ih

theorem mem_updateRow_of_ne (tbl : List SettingRow) (j : ℤ) (nm : String)
    (c : Option String) (ord : ℤ) (r : SettingRow) (h : r ∈ tbl) (hne : r.id ≠ j) :
    r ∈ updateRow tbl j nm c ord := by
  rw [updateRow]
  refine List.mem_map.mpr ⟨r, h, ?_⟩
  rw [if_neg hne]

theorem updateRow_mem_id (tbl : List SettingRow) (j : ℤ) (nm : String)
    (c : Option String) (ord : ℤ) (r : SettingRow) (h : r ∈ updateRow tbl j nm c ord) :
    ∃ r1 ∈ tbl, r.id = r1.id := by
  rw [updateRow] at h
  rcases List.mem_map.mp h with ⟨r1, hr1, heq⟩
  refine ⟨r1, hr1, ?_⟩
  rw [← heq]
  by_cases hr : r1.id = j
  · rw [if_pos hr, hr]
  · rw [if_neg hr]

theorem go_lookup_untouched :
    ∀ (ps : List PostedPerson) (nid idx : ℤ) (exIds : List ℤ) (tbl : List SettingRow) (i : ℤ),
      i ∉ uTargets ps exIds → i < nid →
      lookupId (putPersonsGo ps nid idx exIds tbl) i = lookupId tbl i := by
  intro ps
  induction ps with
  | nil => intro nid idx exIds tbl i _ _; rfl
  | cons p ps ih =>
      intro nid idx exIds tbl i hnt hlt
      cases hpid : p.id with
      | none =>
          simp only [putPersonsGo, hpid]
          rw [ih (nid + 1) (idx + 1) exIds _ i (by simpa [uTargets, hpid] using hnt) (by omega)]
          exact lookupId_append_ne tbl _ i (show nid ≠ i by omega)
      | some j =>
          simp only [putPersonsGo, hpid]
          by_cases hc : j ≠ 0 ∧ j ∈ exIds
          · rw [if_pos hc]
            have hnt1 : i ∉ uTargets ps exIds := by
              intro hx
              simp only [uTargets, hpid, if_pos hc] at hnt
              exact hnt (List.mem_cons_of_mem _ hx)
            have hnt2 : i ≠ j := by
              intro hx
              simp only [uTargets, hpid, if_pos hc] at hnt
              exact hnt (hx ▸ List.mem_cons_self _ _)
            rw [ih nid (idx + 1) exIds _ i hnt1 hlt]
            exact lookupId_updateRow_ne tbl j i _ _ _ hnt2
          · rw [if_neg hc]
            rw [ih (nid + 1) (idx + 1) exIds _ i (by simpa [uTargets, hpid, hc] using hnt)
              (by omega)]
            exact lookupId_append_ne tbl _ i (show nid ≠ i by omega)

theorem go_lookup_update :
    ∀ (ps : List PostedPerson) (nid idx : ℤ) (exIds : List ℤ) (tbl : List SettingRow)
      (k : ℕ) (p : PostedPerson) (j : ℤ),
      ps[k]? = some p → p.id = some j → j ≠ 0 → j ∈ exIds →
      (uTargets ps exIds).Nodup → j < nid →
      (∃ r0, lookupId tbl j = some r0) →
      lookupId (putPersonsGo ps nid idx exIds tbl) j
        = some { id := j, name := p.name, color := jsColorOpt p.color, order := idx + (k : ℤ) } := by
  intro ps
  induction ps with
  | nil => intro nid idx exIds tbl k p j hk; simp at hk
  | cons q qs ih =>
      intro nid idx exIds tbl k p j hk hpid hj hmem hnd hlt hsome
      cases k with
      | zero =>
          simp only [List.getElem?_cons_zero, Option.some.injEq] at hk
          subst hk
          simp only [putPersonsGo, hpid, if_pos (⟨hj, hmem⟩ : j ≠ 0 ∧ j ∈ exIds)]
          rcases hsome with ⟨r0, hr0⟩
          have hupd := lookupId_updateRow_eq tbl j q.name (jsColorOpt q.color) idx r0 hr0
          have hnt : j ∉ uTargets qs exIds := by
            simp only [uTargets, hpid, if_pos (⟨hj, hmem⟩ : j ≠ 0 ∧ j ∈ exIds)] at hnd
            exact (List.nodup_cons.mp hnd).1
          rw [go_lookup_untouched qs nid (idx + 1) exIds _ j hnt hlt, hupd]
          norm_num
      | succ n =>
          simp only [List.getElem?_cons_succ] at hk
          have hjmem : j ∈ uTargets qs exIds := mem_uTargets_of_entry qs exIds n p j hk hpid hj hmem
          rw [show (idx + (((n : ℕ) + 1 : ℕ) : ℤ)) = (idx + 1) + (n : ℤ) from by push_cast; ring]
          cases hqid : q.id with
          | none =>
              simp only [putPersonsGo, hqid]
              rcases hsome with ⟨r0, hr0⟩
              exact ih (nid + 1) (idx + 1) exIds _ n p j hk hpid hj hmem
                (by simpa [uTargets, hqid] using hnd) (by omega)
                ⟨r0, by rw [lookupId_append_ne tbl _ j (show nid ≠ j by omega)]; exact hr0⟩
          | some jq =>
              by_cases hc : jq ≠ 0 ∧ jq ∈ exIds
              · simp only [putPersonsGo, hqid, if_pos hc]
                have hnd2 : (jq :: uTargets qs exIds).Nodup := by
                  simpa [uTargets, hqid, if_pos hc] using hnd
                have hjq : jq ≠ j := by
                  intro hx
                  exact (List.nodup_cons.mp hnd2).1 (hx ▸ hjmem)
                rcases hsome with ⟨r0, hr0⟩
                exact ih nid (idx + 1) exIds _ n p j hk hpid hj hmem
                  (List.nodup_cons.mp hnd2).2 hlt
                  ⟨r0, by
                    rw [lookupId_updateRow_ne tbl jq j _ _ _ (fun hx => hjq hx.symm)]
                    exact hr0⟩
              · simp only [putPersonsGo, hqid, if_neg hc]
                rcases hsome with ⟨r0, hr0⟩
                exact ih (nid + 1) (idx + 1) exIds _ n p j hk hpid hj hmem
                  (by simpa [uTargets, hqid, hc] using hnd) (by omega)
                  ⟨r0, by rw [lookupId_append_ne tbl _ j (show nid ≠ j by omega)]; exact hr0⟩

theorem go_mem_preserved :
    ∀ (ps : List PostedPerson) (nid idx : ℤ) (exIds : List ℤ) (tbl : List SettingRow)
      (r : SettingRow), r ∈ tbl → r.id ∉ uTargets ps exIds →
      r ∈ putPersonsGo ps nid idx exIds tbl := by
  intro ps
  induction ps with
  | nil => intro nid idx exIds tbl r h _; exact h
  | cons p ps ih =>
      intro nid idx exIds tbl r h hnt
      cases hpid : p.id with
      | none =>
          simp only [putPersonsGo, hpid]
          exact ih (nid + 1) (idx + 1) exIds _ r (List.mem_append_left _ h)
            (by simpa [uTargets, hpid] using hnt)
      | some j =>
          simp only [putPersonsGo, hpid]
          by_cases hc : j ≠ 0 ∧ j ∈ exIds
          · rw [if_pos hc]
            have hnt1 : r.id ∉ uTargets ps exIds := by
              intro hx
              simp only [uTargets, hpid, if_pos hc] at hnt
              exact hnt (List.mem_cons_of_mem _ hx)
            have hnt2 : r.id ≠ j := by
              intro hx
              simp only [uTargets, hpid, if_pos hc] at hnt
              exact hnt (hx ▸ List.mem_cons_self _ _)
            exact ih nid (idx + 1) exIds _ r (mem_updateRow_of_ne tbl j _ _ _ r h hnt2) hnt1
          · rw [if_neg hc]
            exact ih (nid + 1) (idx + 1) exIds _ r (List.mem_append_left _ h)
              (by simpa [uTargets, hpid, hc] using hnt)

theorem go_created :
    ∀ (ps : List PostedPerson) (nid idx : ℤ) (exIds : List ℤ) (tbl : List SettingRow)
      (k : ℕ) (p : PostedPerson),
      ps[k]? = some p →
      (∀ j, p.id = some j → ¬(j ≠ 0 ∧ j ∈ exIds)) →
      (∀ e ∈ exIds, e < nid) →
      ∃ r ∈ putPersonsGo ps nid idx exIds tbl,
        r.name = p.name ∧ r.color = jsColorOpt p.color ∧ r.order = idx + (k : ℤ) ∧ nid ≤ r.id := by
  intro ps
  induction ps with
  | nil => intro nid idx exIds tbl k p hk; simp at hk
  | cons q qs ih =>
      intro nid idx exIds tbl k p hk hcr hex
      cases k with
      | zero =>
          simp only [List.getElem?_cons_zero, Option.some.injEq] at hk
          subst hk
          have hmain :
              { id := nid, name := q.name, color := jsColorOpt q.color, order := idx }
                ∈ putPersonsGo qs (nid + 1) (idx + 1) exIds
                  (tbl ++ [ { id := nid, name := q.name, color := jsColorOpt q.color, order := idx } ]) := by
            refine go_mem_preserved qs (nid + 1) (idx + 1) exIds _ _ ?_ ?_
            · exact List.mem_append_right _ (List.mem_singleton.mpr rfl)
            · intro hx
              have := hex nid (uTargets_mem_exIds qs exIds nid hx)
              omega
          cases hpid : q.id with
          | none =>
              simp only [putPersonsGo, hpid]
              exact ⟨_, hmain, rfl, rfl, by norm_num, by norm_num⟩
          | some j =>
              simp only [putPersonsGo, hpid, if_neg (hcr j hpid)]
              exact ⟨_, hmain, rfl, rfl, by norm_num, by norm_num⟩
      | succ n =>
          simp only [List.getElem?_cons_succ] at hk
          cases hqid : q.id with
          | none =>
              simp only [putPersonsGo, hqid]
              obtain ⟨r, hr, h1, h2, h3, h4⟩ :=
                ih (nid + 1) (idx + 1) exIds
                  (tbl ++ [ { id := nid, name := q.name, color := jsColorOpt q.color, order := idx } ])
                  n p hk hcr (by intro e he; have := hex e he; omega)
              exact ⟨r, hr, h1, h2, by push_cast at h3 ⊢; omega, by omega⟩
          | some jq =>
              by_cases hc : jq ≠ 0 ∧ jq ∈ exIds
              · simp only [putPersonsGo, hqid, if_pos hc]
                obtain ⟨r, hr, h1, h2, h3, h4⟩ :=
                  ih nid (idx + 1) exIds (updateRow tbl jq q.name (jsColorOpt q.color) idx)
                    n p hk hcr hex
                exact ⟨r, hr, h1, h2, by push_cast at h3 ⊢; omega, h4⟩
              · simp only [putPersonsGo, hqid, if_neg hc]
                obtain ⟨r, hr, h1, h2, h3, h4⟩ :=
                  ih (nid + 1) (idx + 1) exIds
                    (tbl ++ [ { id := nid, name := q.name, color := jsColorOpt q.color, order := idx } ])
                    n p hk hcr (by intro e he; have := hex e he; omega)
                exact ⟨r, hr, h1, h2, by push_cast at h3 ⊢; omega, by omega⟩

theorem go_ids :
    ∀ (ps : List PostedPerson) (nid idx : ℤ) (exIds : List ℤ) (tbl : List SettingRow)
      (r : SettingRow), r ∈ putPersonsGo ps nid idx exIds tbl →
      (∃ r0 ∈ tbl, r.id = r0.id) ∨ nid ≤ r.id := by
  intro ps
  induction ps with
  | nil => intro nid idx exIds tbl r h; exact Or.inl ⟨r, h, rfl⟩
  | cons p ps ih =>
      intro nid idx exIds tbl r h
      cases hpid : p.id with
      | none =>
          simp only [putPersonsGo, hpid] at h
          rcases ih (nid + 1) (idx + 1) exIds _ r h with ⟨r0, hr0, heq⟩ | hge
          · rcases List.mem_append.mp hr0 with hin | hin
            · exact Or.inl ⟨r0, hin, heq⟩
            · rw [List.mem_singleton.mp hin] at heq
              exact Or.inr (by rw [heq])
          · exact Or.inr (by omega)
      | some j =>
          simp only [putPersonsGo, hpid] at h
          by_cases hc : j ≠ 0 ∧ j ∈ exIds
          · rw [if_pos hc] at h
            rcases ih nid (idx + 1) exIds _ r h with ⟨r0, hr0, heq⟩ | hge
            · rcases updateRow_mem_id tbl j _ _ _ r0 hr0 with ⟨r1, hr1, heq2⟩
              exact Or.inl ⟨r1, hr1, heq.trans heq2⟩
            · exact Or.inr hge
          · rw [if_neg hc] at h
            rcases ih (nid + 1) (idx + 1) exIds _ r h with ⟨r0, hr0, heq⟩ | hge
            · rcases List.mem_append.mp hr0 with hin | hin
              · exact Or.inl ⟨r0, hin, heq⟩
              · rw [List.mem_singleton.mp hin] at heq
                exact Or.inr (by rw [heq])
            · exact Or.inr (by omega)

/-- Claim C2 (amended): types and statuses saves fully replace the table —
one fresh-id row per posted record, `order = index`, no pre-existing row
identity surviving — while the persons save is an id-preserving diff: a
posted entry whose truthy id already exists rewrites that existing row in
place (keeping its id; duplicated posted ids rewrite one and the same
row, the last posted entry winning), rows whose ids are not posted are
deleted, entries without a usable existing id are created as fresh-id
rows, and every surviving row either carries a posted truthy id or is
freshly created. Exactness of the in-place update is stated for posted
lists whose truthy ids are distinct. -/
theorem c2_settings_replace :
    (∀ (tbl : List SettingRow) (nextId : ℤ) (posted : List PostedSetting),
      (∀ r ∈ tbl, r.id < nextId) →
      (putTypes tbl nextId posted).length = posted.length ∧
      (∀ (i : ℕ) (r : SettingRow) (p : PostedSetting),
        (putTypes tbl nextId posted)[i]? = some r → posted[i]? = some p →
        r.name = p.name ∧ r.color = p.color ∧ r.order = i ∧
        r.id ∉ tbl.map SettingRow.id)) ∧
    (∀ (tbl : List SettingRow) (nextId : ℤ) (posted : List PostedPerson),
      (∀ r ∈ tbl, r.id < nextId) →
      (truthyIds posted).Nodup →
      (∀ (i : ℕ) (p : PostedPerson) (pid : ℤ),
        posted[i]? = some p → p.id = some pid → pid ≠ 0 → pid ∈ tbl.map SettingRow.id →
        lookupId (putPersons tbl nextId posted) pid
          = some { id := pid, name := p.name, color := jsColorOpt p.color, order := (i : ℤ) }) ∧
      (∀ r ∈ tbl, r.id ∉ truthyIds posted →
        lookupId (putPersons tbl nextId posted) r.id = none) ∧
      (∀ (i : ℕ) (p : PostedPerson),
        posted[i]? = some p →
        (∀ pid, p.id = some pid → pid = 0 ∨ pid ∉ tbl.map SettingRow.id) →
        ∃ r ∈ putPersons tbl nextId posted,
          r.name = p.name ∧ r.color = jsColorOpt p.color ∧ r.order = (i : ℤ) ∧
          r.id ∉ tbl.map SettingRow.id) ∧
      (∀ r ∈ putPersons tbl nextId posted,
        r.id ∈ truthyIds posted ∨ nextId ≤ r.id)) := by
  constructor
  · intro tbl nextId posted hfresh
    refine ⟨by rw [putTypes]; exact createdRows_length posted nextId 0, ?_⟩
    intro i r p hr hp
    rw [putTypes] at hr
    have hs := createdRows_spec posted nextId 0 i r p hr hp
    refine ⟨hs.1, hs.2.1, by omega, ?_⟩
    intro hmem
    rcases List.mem_map.mp hmem with ⟨r0, hr0, hid⟩
    have := hfresh r0 hr0
    omega
  · intro tbl nextId posted hfresh hnodup
    have hmapeq : tbl.map (fun r => r.id) = tbl.map SettingRow.id := rfl
    have hexlt : ∀ e ∈ tbl.map (fun r => r.id), e < nextId := by
      intro e he
      rcases List.mem_map.mp he with ⟨r0, hr0, heq⟩
      rw [← heq]
      exact hfresh r0 hr0
    have hndU : (uTargets posted (tbl.map (fun r => r.id))).Nodup :=
      List.Nodup.sublist (uTargets_sublist posted (tbl.map (fun r => r.id))) hnodup
    refine ⟨?_, ?_, ?_, ?_⟩
    · intro i p pid hip hpid hp0 hpmem
      rw [← hmapeq] at hpmem
      rcases List.mem_map.mp hpmem with ⟨r0, hr0, hr0id⟩
      have hptruthy : pid ∈ truthyIds posted := by
        have hpmem2 : p ∈ posted := List.getElem?_mem hip
        rw [truthyIds]
        exact List.mem_filterMap.mpr ⟨p, hpmem2, by rw [hpid]; simp [hp0]⟩
      have hkept : r0 ∈ tbl.filter (fun r => decide (r.id ∈ truthyIds posted)) := by
        rw [List.mem_filter]
        exact ⟨hr0, by simp [hr0id, hptruthy]⟩
      have hsome : ∃ rr,
          lookupId (tbl.filter (fun r => decide (r.id ∈ truthyIds posted))) pid = some rr := by
        cases hfind : lookupId (tbl.filter (fun r => decide (r.id ∈ truthyIds posted))) pid with
        | some rr => exact ⟨rr, rfl⟩
        | none =>
            rw [lookupId] at hfind
            have := List.find?_eq_none.mp hfind r0 hkept
            simp [hr0id] at this
      have hmain := go_lookup_update posted nextId 0 (tbl.map (fun r => r.id))
        (tbl.filter (fun r => decide (r.id ∈ truthyIds posted))) i p pid hip hpid hp0 hpmem hndU
        (by rw [← hr0id]; exact hfresh r0 hr0) hsome
      rw [putPersons, hmain]
      norm_num
    · intro r hr hnot
      rw [putPersons, go_lookup_untouched posted nextId 0 _ _ r.id
        (fun hx => hnot (List.Sublist.subset (uTargets_sublist posted _) hx)) (hfresh r hr)]
      rw [lookupId]
      apply List.find?_eq_none.mpr
      intro x hx
      rw [List.mem_filter] at hx
      simp only [decide_eq_true_eq] at hx ⊢
      intro hxr
      exact hnot (hxr ▸ hx.2)
    · intro i p hip hfreshp
      have hcr : ∀ j, p.id = some j → ¬(j ≠ 0 ∧ j ∈ tbl.map (fun r => r.id)) := by
        intro j hj hcontra
        rcases hfreshp j hj with h0 | hnm
        · exact hcontra.1 h0
        · exact hnm hcontra.2
      obtain ⟨r, hrmem, h1, h2, h3, h4⟩ := go_created posted nextId 0 (tbl.map (fun r => r.id))
        (tbl.filter (fun r => decide (r.id ∈ truthyIds posted))) i p hip hcr hexlt
      refine ⟨r, by rw [putPersons]; exact hrmem, h1, h2, by omega, ?_⟩
      intro hmem2
      rcases List.mem_map.mp hmem2 with ⟨r0, hr0, heq⟩
      have := hfresh r0 hr0
      omega
    · intro r hr
      rw [putPersons] at hr
      rcases go_ids posted nextId 0 _ _ r hr with ⟨r0, hr0, heq⟩ | hge
      · rw [List.mem_filter] at hr0
        left
        rw [heq]
        simpa using hr0.2
      · right
        exact hge

def typesPost0 : List PostedSetting :=
  [ { name := "Urgent", color := none }, { name := "Regular", color := none } ]

/-- Witness for C2 at concrete tables and posted lists: the types save
produces one row per posted record, and the persons save rewrites the
existing row id 1 in place with the posted name. -/
theorem c2_witness :
    (putTypes personsTable0 2 typesPost0).length = typesPost0.length ∧
    lookupId (putPersons personsTable0 2 personsPost0) 1
      = some { id := 1, name := "Alicia", color := none, order := 0 } := by
  refine ⟨(c2_settings_replace.1 personsTable0 2 typesPost0 (by decide)).1, ?_⟩
  have h := (c2_settings_replace.2 personsTable0 2 personsPost0 (by decide) (by decide)).1
    0 { id := some 1, name := "Alicia", color := none } 1 rfl rfl (by decide) (by decide)
  simpa using h

/-! ## Client task list: filtering and sorting (TaskView) -/

structure CTask where
  id : ℤ
  name : String
  type : String
  status : String
  startDate : String
  dueDate : String
  completedAt : Option ℤ
  projectId : ℤ
  projectIds : Option (List ℤ)
  personIds : Option (List ℤ)
deriving DecidableEq

/-- The TaskView filter predicate: each multi-select filter rejects only
when non-empty and unmatched; the search rejects when non-empty and the
lowered name does not contain the lowered query. -/
def taskPasses (fType fStatus : List String) (fProject fPOC : List ℤ) (q : String)
    (task : CTask) : Bool :=
  if fType ≠ [] ∧ task.type ∉ fType then false
  else if fStatus ≠ [] ∧ task.status ∉ fStatus then false
  else if fProject ≠ [] ∧ ¬ ∃ pid ∈ task.projectIds.getD [task.projectId], pid ∈ fProject then
    false
  else if fPOC ≠ [] ∧ ¬ ∃ pid ∈ task.personIds.getD [], pid ∈ fPOC then false
  else if q.data ≠ [] ∧ hasSub (lowerL task.name.data) (lowerL q.data) = false then false
  else true

def filterTasks (fType fStatus : List String) (fProject fPOC : List ℤ) (q : String)
    (tasks : List CTask) : List CTask :=
  tasks.filter (taskPasses fType fStatus fProject fPOC q)

theorem hasSub_nil (s : List Char) : hasSub s [] = true := by
  cases s <;> simp [hasSub, leadsWith]

theorem taskPasses_iff (fType fStatus : List String) (fProject fPOC : List ℤ) (q : String)
    (task : CTask) :
    taskPasses fType fStatus fProject fPOC q task = true ↔
      (fType = [] ∨ task.type ∈ fType) ∧
      (fStatus = [] ∨ task.status ∈ fStatus) ∧
      (fProject = [] ∨ ∃ pid ∈ task.projectIds.getD [task.projectId], pid ∈ fProject) ∧
      (fPOC = [] ∨ ∃ pid ∈ task.personIds.getD [], pid ∈ fPOC) ∧
      hasSub (lowerL task.name.data) (lowerL q.data) = true := by
  rw [taskPasses]
  split_ifs with h1 h2 h3 h4 h5
  · simp only [Bool.false_eq_true, false_iff]
    tauto
  · simp only [Bool.false_eq_true, false_iff]
    tauto
  · simp only [Bool.false_eq_true, false_iff]
    intro hx
    rcases h3 with ⟨hne, hnot⟩
    rcases hx.2.2.1 with hemp | hex
    · exact hne hemp
    · exact hnot hex
  · simp only [Bool.false_eq_true, false_iff]
    intro hx
    rcases h4 with ⟨hne, hnot⟩
    rcases hx.2.2.2.1 with hemp | hex
    · exact hne hemp
    · exact hnot hex
  · simp only [Bool.false_eq_true, false_iff]
    intro hx
    rcases h5 with ⟨hq, hsub⟩
    rw [hx.2.2.2.2] at hsub
    simp at hsub
  · simp only [true_iff]
    push_neg at h1 h2 h3 h4 h5
    refine ⟨?_, ?_, ?_, ?_, ?_⟩
    · by_cases hx : fType = []
      · exact Or.inl hx
      · exact Or.inr (h1 hx)
    · by_cases hx : fStatus = []
      · exact Or.inl hx
      · exact Or.inr (h2 hx)
    · by_cases hx : fProject = []
      · exact Or.inl hx
      · exact Or.inr (h3 hx)
    · by_cases hx : fPOC = []
      · exact Or.inl hx
      · exact Or.inr (h4 hx)
    · by_cases hx : q.data = []
      · rw [hx]
        exact hasSub_nil _
      · have := h5 hx
        simpa using this

/-- Claim C5: the filtered list is exactly the subset satisfying all
active filters AND-combined (multi-select filters OR-combined internally,
empty selection imposing no constraint, search by case-insensitive
substring on the name), and with every filter empty the task list is
returned unchanged. -/
theorem c5_filter_spec :
    (∀ (fType fStatus : List String) (fProject fPOC : List ℤ) (q : String)
      (tasks : List CTask) (t : CTask),
      t ∈ filterTasks fType fStatus fProject fPOC q tasks ↔
        t ∈ tasks ∧
        (fType = [] ∨ t.type ∈ fType) ∧
        (fStatus = [] ∨ t.status ∈ fStatus) ∧
        (fProject = [] ∨ ∃ pid ∈ t.projectIds.getD [t.projectId], pid ∈ fProject) ∧
        (fPOC = [] ∨ ∃ pid ∈ t.personIds.getD [], pid ∈ fPOC) ∧
        hasSub (lowerL t.name.data) (lowerL q.data) = true) ∧
    (∀ tasks : List CTask, filterTasks [] [] [] [] "" tasks = tasks) := by
  constructor
  · intro fType fStatus fProject fPOC q tasks t
    rw [filterTasks, List.mem_filter, taskPasses_iff]
  · intro tasks
    rw [filterTasks, List.filter_eq_self]
    intro t _
    rw [taskPasses_iff]
    refine ⟨Or.inl rfl, Or.inl rfl, Or.inl rfl, Or.inl rfl, ?_⟩
    exact hasSub_nil _

def isDone (t : CTask) : Bool := t.status == "Done"

/-- `a.completedAt ? new Date(a.completedAt).getTime() : 0`. -/
def doneTime (t : CTask) : ℤ :=
  match t.completedAt with
  | some v => v
  | none => 0

/-- The `typeOrderMap[name] = idx` loop: a later duplicate overwrites, so
the map holds the LAST index of a name. -/
def lastIdxGo (x : String) : List String → ℤ → Option ℤ → Option ℤ
  | [], _, acc => acc
  | n :: ns, i, acc => lastIdxGo x ns (i + 1) (if n = x then some i else acc)

def lastIdx (names : List String) (x : String) : Option ℤ := lastIdxGo x names 0 none

/-- `typeOrderMap[t] ?? 99`. -/
def effIdx (names : List String) (x : String) : ℤ := (lastIdx names x).getD 99

def hasDueStr (t : CTask) : Bool := t.dueDate != ""

/-- The TaskView sort comparator. -/
def taskCmp (tys sts : List String) (a b : CTask) : ℤ :=
  if isDone a = true ∧ isDone b = false then 1
  else if isDone a = false ∧ isDone b = true then -1
  else if isDone a = true ∧ isDone b = true then doneTime b - doneTime a
  else
    let tc := effIdx tys a.type - effIdx tys b.type
    if tc ≠ 0 then tc
    else
      let sc := effIdx sts a.status - effIdx sts b.status
      if sc ≠ 0 then sc
      else if hasDueStr a = true ∧ hasDueStr b = false then -1
      else if hasDueStr a = false ∧ hasDueStr b = true then 1
      else 0

/-- JS stable `Array.prototype.sort` with the comparator: a stable merge
sort under `cmp ≤ 0`. -/
def sortTasks (tys sts : List String) (tasks : List CTask) : List CTask :=
  tasks.mergeSort (fun a b => decide (taskCmp tys sts a b ≤ 0))

def dueRank (t : CTask) : ℤ := if hasDueStr t = true then 0 else 1

/-- The specified order: Done after non-Done; Done by `completedAt`
descending (missing = epoch 0); non-Done lexicographically by effective
type index, then effective status index (absent name = index 99), then
due-date presence. -/
def specLE (tys sts : List String) (a b : CTask) : Prop :=
  if isDone a = true then
    isDone b = true ∧ doneTime b ≤ doneTime a
  else
    isDone b = true ∨
      (effIdx tys a.type < effIdx tys b.type ∨
        (effIdx tys a.type = effIdx tys b.type ∧
          (effIdx sts a.status < effIdx sts b.status ∨
            (effIdx sts a.status = effIdx sts b.status ∧ dueRank a ≤ dueRank b))))

theorem taskCmp_le_iff (tys sts : List String) (a b : CTask) :
    taskCmp tys sts a b ≤ 0 ↔ specLE tys sts a b := by
  rcases Bool.eq_false_or_eq_true (isDone a) with da | da <;>
    rcases Bool.eq_false_or_eq_true (isDone b) with db | db <;>
      rcases Bool.eq_false_or_eq_true (hasDueStr a) with fa | fa <;>
        rcases Bool.eq_false_or_eq_true (hasDueStr b) with fb | fb <;>
          simp only [taskCmp, specLE, dueRank, da, db, fa, fb] <;>
            norm_num <;> split_ifs <;> omega

theorem specLE_total (tys sts : List String) (a b : CTask) :
    specLE tys sts a b ∨ specLE tys sts b a := by
  rcases Bool.eq_false_or_eq_true (isDone a) with da | da <;>
    rcases Bool.eq_false_or_eq_true (isDone b) with db | db <;>
      simp only [specLE, da, db] <;> norm_num <;> omega

theorem specLE_trans (tys sts : List String) (a b c : CTask)
    (h1 : specLE tys sts a b) (h2 : specLE tys sts b c) : specLE tys sts a c := by
  rcases Bool.eq_false_or_eq_true (isDone a) with da | da <;>
    rcases Bool.eq_false_or_eq_true (isDone b) with db | db <;>
      rcases Bool.eq_false_or_eq_true (isDone c) with dc | dc <;>
        simp only [specLE, da, db, dc] at h1 h2 ⊢ <;> norm_num at h1 h2 ⊢ <;> omega

theorem taskLe_trans (tys sts : List String) :
    ∀ a b c : CTask, decide (taskCmp tys sts a b ≤ 0) = true →
      decide (taskCmp tys sts b c ≤ 0) = true →
      decide (taskCmp tys sts a c ≤ 0) = true := by
  intro a b c h1 h2
  rw [decide_eq_true_eq] at h1 h2
  rw [decide_eq_true_eq]
  rw [taskCmp_le_iff] at h1 h2 ⊢
  exact specLE_trans tys sts a b c h1 h2

theorem taskLe_total (tys sts : List String) :
    ∀ a b : CTask, (decide (taskCmp tys sts a b ≤ 0) || decide (taskCmp tys sts b a ≤ 0)) = true := by
  intro a b
  rcases specLE_total tys sts a b with h | h
  · simp [decide_eq_true_eq, (taskCmp_le_iff tys sts a b).mpr h]
  · simp [decide_eq_true_eq, (taskCmp_le_iff tys sts b a).mpr h]

theorem lastIdxGo_bound :
    ∀ (names : List String) (x : String) (i : ℤ) (acc : Option ℤ), 0 ≤ i →
      (∀ j, acc = some j → 0 ≤ j ∧ j < i) →
      ∀ j, lastIdxGo x names i acc = some j → 0 ≤ j ∧ j < i + names.length := by
  intro names
  induction names with
  | nil =>
      intro x i acc _ hacc j h
      have := hacc j h
      simp only [List.length_nil]
      omega
  | cons n ns ih =>
      intro x i acc hi hacc j h
      simp only [lastIdxGo] at h
      have := ih x (i + 1) (if n = x then some i else acc) (by omega)
        (by
          intro j2 hj2
          split_ifs at hj2 with hnx
          · injection hj2 with hj2
            omega
          · have := hacc j2 hj2
            omega)
        j h
      simp only [List.length_cons]
      push_cast
      omega

theorem lastIdx_bound (names : List String) (x : String) (j : ℤ)
    (h : lastIdx names x = some j) : 0 ≤ j ∧ j < names.length := by
  have := lastIdxGo_bound names x 0 none (by omega) (by intro j2 hj2; simp at hj2) j h
  omega

/-- Claim C4 (amended): the TaskView sort returns a permutation of its
input that is pairwise ordered by: Done tasks after all non-Done tasks;
Done tasks descending by `completedAt` (missing = epoch 0); non-Done
tasks ascending by effective type index, then effective status index
(a name absent from the configured list gets index 99), then tasks with a
due date before tasks without one; ties keep input order; and whenever at
most 99 types (statuses) are configured, unknown-type (unknown-status)
tasks indeed sort after known ones. -/
theorem c4_sort_spec (tys sts : List String) (tasks : List CTask) :
    (sortTasks tys sts tasks).Perm tasks ∧
    List.Pairwise (specLE tys sts) (sortTasks tys sts tasks) ∧
    (∀ a b : CTask, List.Sublist [a, b] tasks → taskCmp tys sts a b = 0 →
      List.Sublist [a, b] (sortTasks tys sts tasks)) ∧
    (tys.length ≤ 99 →
      List.Pairwise (fun a b => isDone a = false → isDone b = false →
        lastIdx tys a.type = none → lastIdx tys b.type = none) (sortTasks tys sts tasks)) ∧
    (sts.length ≤ 99 →
      List.Pairwise (fun a b => isDone a = false → isDone b = false →
        effIdx tys a.type = effIdx tys b.type →
        lastIdx sts a.status = none → lastIdx sts b.status = none) (sortTasks tys sts tasks)) := by
  have hsorted := @List.sorted_mergeSort CTask (fun a b => decide (taskCmp tys sts a b ≤ 0))
    (taskLe_trans tys sts) (taskLe_total tys sts) tasks
  have hpairwise : List.Pairwise (specLE tys sts) (sortTasks tys sts tasks) := by
    refine hsorted.imp ?_
    intro a b h
    rw [decide_eq_true_eq] at h
    exact (taskCmp_le_iff tys sts a b).mp h
  refine ⟨List.mergeSort_perm tasks _, hpairwise, ?_, ?_, ?_⟩
  · intro a b hsub hcmp
    have hle : decide (taskCmp tys sts a b ≤ 0) = true := by
      rw [decide_eq_true_eq, hcmp]
    have hpw : List.Pairwise (fun x y => decide (taskCmp tys sts x y ≤ 0) = true) [a, b] :=
      List.Pairwise.cons
        (by
          intro y hy
          rw [List.mem_singleton] at hy
          rw [hy]
          exact hle)
        (List.pairwise_singleton _ _)
    exact List.sublist_mergeSort (taskLe_trans tys sts) (taskLe_total tys sts) hpw hsub
  · intro hlen
    refine hpairwise.imp ?_
    intro a b h hda hdb hna
    rw [specLE, if_neg (by rw [hda]; norm_num)] at h
    rcases h with h | h
    · exact absurd h (by rw [hdb]; norm_num)
    · cases hb : lastIdx tys b.type with
      | none => rfl
      | some j =>
          have hbound := lastIdx_bound tys b.type j hb
          have hea : effIdx tys a.type = 99 := by rw [effIdx, hna]; rfl
          have heb : effIdx tys b.type = j := by rw [effIdx, hb]; rfl
          rw [hea, heb] at h
          omega
  · intro hlen
    refine hpairwise.imp ?_
    intro a b h hda hdb hty hna
    rw [specLE, if_neg (by rw [hda]; norm_num)] at h
    rcases h with h | h
    · exact absurd h (by rw [hdb]; norm_num)
    · cases hb : lastIdx sts b.status with
      | none => rfl
      | some j =>
          have hbound := lastIdx_bound sts b.status j hb
          have hea : effIdx sts a.status = 99 := by rw [effIdx, hna]; rfl
          have heb : effIdx sts b.status = j := by rw [effIdx, hb]; rfl
          rcases h with h | ⟨heq, h⟩
          · omega
          · rw [hea, heb] at h
            rcases h with h | ⟨h, _⟩ <;> omega

def cTaskA : CTask :=
  { id := 1, name := "a", type := "Urgent", status := "Must do", startDate := "",
    dueDate := "5/Mar", completedAt := none, projectId := 1,
    projectIds := none, personIds := none }

def cTaskB : CTask :=
  { id := 2, name := "b", type := "zzz", status := "Must do", startDate := "",
    dueDate := "", completedAt := none, projectId := 1,
    projectIds := none, personIds := none }

/-- Witness for C4 at a concrete configuration and task list. -/
theorem c4_witness :
    List.Pairwise (fun a b => isDone a = false → isDone b = false →
      lastIdx ["Urgent"] a.type = none → lastIdx ["Urgent"] b.type = none)
      (sortTasks ["Urgent"] ["Must do"] [cTaskA, cTaskB]) :=
  (c4_sort_spec ["Urgent"] ["Must do"] [cTaskA, cTaskB]).2.2.2.1 (by norm_num)

/-- 101 configured type names: `"0" … "100"`. -/
def bigTypes : List String := (List.range 101).map (fun i => toString i)

def cTaskU : CTask :=
  { id := 1, name := "u", type := "zzz", status := "s", startDate := "",
    dueDate := "", completedAt := none, projectId := 1,
    projectIds := none, personIds := none }

def cTaskK : CTask :=
  { id := 2, name := "k", type := "100", status := "s", startDate := "",
    dueDate := "", completedAt := none, projectId := 1,
    projectIds := none, personIds := none }

set_option maxRecDepth 20000 in
/-- Counterexample to claim C4 as stated: with 101 configured types, a
task of unknown type (effective index 99) sorts BEFORE a task whose type
sits at configured index 100, so "unknown type sorts last" fails. -/
theorem c4_unknown_type_not_last :
    sortTasks bigTypes [] [cTaskU, cTaskK] = [cTaskU, cTaskK] ∧
    lastIdx bigTypes cTaskU.type = none ∧
    cTaskK.type ∈ bigTypes := by
  have hle : decide (taskCmp bigTypes [] cTaskU cTaskK ≤ 0) = true := by decide
  have hpw : List.Pairwise (fun x y => decide (taskCmp bigTypes [] x y ≤ 0) = true)
      [cTaskU, cTaskK] :=
    List.Pairwise.cons
      (by
        intro y hy
        rw [List.mem_singleton] at hy
        rw [hy]
        exact hle)
      (List.pairwise_singleton _ _)
  have hsub := List.sublist_mergeSort (taskLe_trans bigTypes []) (taskLe_total bigTypes [])
    hpw (List.Sublist.refl [cTaskU, cTaskK])
  have heq : [cTaskU, cTaskK]
      = [cTaskU, cTaskK].mergeSort (fun a b => decide (taskCmp bigTypes [] a b ≤ 0)) :=
    List.Sublist.eq_of_length hsub
      ((List.mergeSort_perm [cTaskU, cTaskK] _).length_eq).symm
  exact ⟨heq.symm, by decide, by decide⟩

/-! ## Gantt chart row geometry (GanttView) -/

def PX_PER_DAY : ℤ := 14

inductive GanttItem where
  | milestone (left : ℤ)
  | bar (left width : ℤ)
deriving DecidableEq

/-- The chart cell of a Gantt row: nothing when the due date does not
parse; a milestone dot (CSS `left = x - 6`, i.e. a 12px dot centred on
the due-date x-coordinate) when there is no (parseable) start date; else
a bar from `x(min(start, due))` of width `max(4, x(due) - x(left))`.
`x(d) = (d - chartStart) * PX_PER_DAY`, the source's
`(date - chartStart) / dayMs * PX_PER_DAY` on midnight dates. -/
def ganttChartCell (today chartStart : ℤ) (native : String → Option ℤ) (t : CTask) :
    Option GanttItem :=
  let dueObj := parseDueDate today native t.dueDate
  let startObj := if t.startDate ≠ "" then parseDueDate today native t.startDate else none
  let isMile := t.startDate = "" ∨ startObj = none
  match dueObj with
  | none => none
  | some due =>
    let leftDate :=
      match startObj with
      | some s => if s ≤ due then s else due
      | none => due
    let leftPx := (leftDate - chartStart) * PX_PER_DAY
    let rightPx := (due - chartStart) * PX_PER_DAY
    if isMile then some (GanttItem.milestone (leftPx - 6))
    else some (GanttItem.bar leftPx (max 4 (rightPx - leftPx)))

/-- Claim C6: a task with a parseable due date and no start date renders
as a milestone point centred at `x(due)`; with both dates parseable it
renders as a bar from `x(min(start, due))` to `x(due)` of width at least
4px; and an inverted range (due before start) still renders, as a bar at
`x(due)` clamped to the minimum visible width. -/
theorem c6_gantt_geometry (today chartStart : ℤ) (native : String → Option ℤ)
    (t : CTask) (due : ℤ) (hdue : parseDueDate today native t.dueDate = some due) :
    (t.startDate = "" →
      ganttChartCell today chartStart native t
        = some (GanttItem.milestone ((due - chartStart) * PX_PER_DAY - 6))) ∧
    (∀ s : ℤ, t.startDate ≠ "" → parseDueDate today native t.startDate = some s →
      ganttChartCell today chartStart native t
        = some (GanttItem.bar ((min s due - chartStart) * PX_PER_DAY)
            (max 4 ((due - chartStart) * PX_PER_DAY - (min s due - chartStart) * PX_PER_DAY)))) ∧
    (∀ s : ℤ, t.startDate ≠ "" → parseDueDate today native t.startDate = some s → due < s →
      ganttChartCell today chartStart native t
        = some (GanttItem.bar ((due - chartStart) * PX_PER_DAY) 4)) := by
  refine ⟨?_, ?_, ?_⟩
  · intro h
    simp [ganttChartCell, hdue, h]
  · intro s hs hps
    simp only [ganttChartCell, hdue, hs, ne_eq, not_false_eq_true, if_true, hps]
    rw [if_neg (by simp [hs])]
    rw [min_def]
  · intro s hs hps hlt
    simp only [ganttChartCell, hdue, hs, ne_eq, not_false_eq_true, if_true, hps]
    rw [if_neg (by simp [hs])]
    rw [if_neg (by omega)]
    have : max 4 ((due - chartStart) * PX_PER_DAY - (due - chartStart) * PX_PER_DAY) = 4 := by
      norm_num
    rw [this]

def noneNative : String → Option ℤ := fun _ => none

def gTaskBar : CTask :=
  { id := 3, name := "g", type := "Regular", status := "My action",
    startDate := "5/Mar", dueDate := "10/Mar", completedAt := none,
    projectId := 1, projectIds := none, personIds := none }

set_option maxRecDepth 10000 in
/-- Witness for C6: start `5/Mar` (day 20517), due `10/Mar` (day 20522),
chart starting 2026-01-01. -/
theorem c6_witness :
    ganttChartCell 20454 20454 noneNative gTaskBar
      = some (GanttItem.bar ((min 20517 20522 - 20454) * PX_PER_DAY)
          (max 4 ((20522 - 20454) * PX_PER_DAY - (min 20517 20522 - 20454) * PX_PER_DAY))) :=
  (c6_gantt_geometry 20454 20454 noneNative gTaskBar 20522 (by rfl)).2.1 20517
    (by decide) (by rfl)
